import Mathlib

/-!
Verification of the neurodamus connection-storage core against its
natural-language specification.

The development shallowly embeds the Python sources:
  * `src/neurodamus/io/synapse_reader.py` — synapse parameter records, the
    floating-point delay correction, the calcium-dependent U-scaling and the
    legacy (NRN) reader;
  * `src/neurodamus/connection_manager.py` — the per-destination ordered
    connection index (`_find_connection`, `store_connection`, `delete`,
    `disable`, `enable`, the group operations and `connect_all`) and the
    gap-junction offset-table constructor.

Machine floats are idealised as exact rationals (`ℚ`); the numpy `astype(i4)`
cast and Python `int()` are embedded as truncation toward zero.
-/

namespace Neurodamus

/-! ### Numeric helpers -/

/-- Truncation of a rational toward zero, the behaviour of Python `int()` and
of numpy `.astype(i4)` on in-range values (the 32-bit wrap of out-of-range
doubles is not modelled). -/
def truncQ (q : ℚ) : ℤ := if 0 ≤ q then ⌊q⌋ else ⌈q⌉

/-! ### Synapse parameter records (`synapse_reader.py`)

`SynapseParameters` rows are numpy records with fields
(sgid, delay, isec, ipt, offset, weight, U, D, F, DTC, synType, nrrp,
u_hill_coefficient, conductance_ratio, maskValue, location) plus optional
extra fields.  Only the fields observed by the claims are carried here; the
purely positional placement fields (isec, ipt, offset, weight, D, F, DTC,
synType, maskValue, location) are never inspected by the claimed properties
and are omitted from the embedding. -/

structure SynRecord where
  sgid : ℚ
  delay : ℚ
  U : ℚ
  u_hill_coefficient : ℚ
  conductance_ratio : ℚ
  nrrp : ℚ
  extras : List (String × ℚ)
deriving DecidableEq

/-- `_constrained_hill(K_half, y)` from `synapse_reader.py` lines 32-35. -/
def constrained_hill (K_half y : ℚ) : ℚ :=
  let K_half_fourth := K_half ^ 4
  let y_fourth := y ^ 4
  (K_half_fourth + 16) / 16 * y_fourth / (K_half_fourth + y_fourth)

/-- The delay patch of `SynapseReader._patch_delay_fp_inaccuracies`
(lines 139-144): `records.delay = (records.delay / dt + 1e-5).astype(i4) * dt`.
The schema always contains the delay field, so the dtype guard of the source
reduces to the emptiness check. -/
def patch_delay_fp_inaccuracies (dt : ℚ) (records : List SynRecord) : List SynRecord :=
  if records.length = 0 then records
  else records.map fun r =>
    { r with delay := ((truncQ (r.delay / dt + 1 / 100000) : ℤ) : ℚ) * dt }

/-- The same correction as written inline in
`connection_manager.py` line 261: `params[1] = int(params[1] / dt + 1e-5) * dt`. -/
def cm_patch_delay (dt delay : ℚ) : ℚ :=
  ((truncQ (delay / dt + 1 / 100000) : ℤ) : ℚ) * dt

/-- `SynapseReader._scale_U_param` (lines 146-158): when a calcium
concentration is given, every record's U (and each extra scale variable) is
multiplied by the per-record hill factor. -/
def scale_U_param (syn_params : List SynRecord) (extra_cellular_calcium : Option ℚ)
    (extra_scale_vars : List String) : List SynRecord :=
  if syn_params.length = 0 then syn_params
  else
    match extra_cellular_calcium with
    | none => syn_params
    | some y =>
      syn_params.map fun r =>
        let scale_factor := constrained_hill r.u_hill_coefficient y
        { r with
          U := r.U * scale_factor
          extras := r.extras.map fun p =>
            if extra_scale_vars.contains p.1 then (p.1, p.2 * scale_factor) else p }

/-- `SynapseReader.get_synapse_parameters` (lines 120-132) on a cache miss:
load, patch delays, and scale U only when `_uhill_property_avail` holds
(caching stores the same value and is not modelled separately). -/
def get_synapse_parameters (uhill_property_avail : Bool) (extra_cellular_calcium : Option ℚ)
    (extra_scale_vars : List String) (dt : ℚ) (raw : List SynRecord) : List SynRecord :=
  let patched := patch_delay_fp_inaccuracies dt raw
  if uhill_property_avail then
    scale_U_param patched extra_cellular_calcium extra_scale_vars
  else patched

/-! ### The legacy NRN reader (`SynReaderNRN`) -/

/-- `SynReaderNRN.has_property` (lines 385-387): returns `False` for every
field name. -/
def nrn_has_property (_field_name : String) : Bool := false

/-- `SynapseReader.__init__` line 88 specialised to the NRN reader:
`self._uhill_property_avail = self.has_property("u_hill_coefficient")`. -/
def nrn_uhill_property_avail : Bool := nrn_has_property "u_hill_coefficient"

/-- `SynReaderNRN._load_synapse_parameters` (lines 389-427): rows are read
from the HDF5 table (`getData row column`); `u_hill_coefficient` and
`conductance_ratio` are set to the sentinel `-1` (lines 423-425), `nrrp` to
column 17 only when the version reports nrrp.  Columns 2,3,4,8,10,11,12,13
fill the placement fields omitted from `SynRecord`. -/
def nrn_load_synapse_parameters (getData : Nat → Nat → ℚ) (nrow : Nat)
    (has_nrrp : Bool) : List SynRecord :=
  (List.range nrow).map fun i =>
    { sgid := getData i 0
      delay := getData i 1
      U := getData i 9
      u_hill_coefficient := -1
      conductance_ratio := -1
      nrrp := if has_nrrp then getData i 17 else -1
      extras := [] }

/-! ### Pointwise descriptions of the reader pipeline -/

theorem patch_delay_get? (dt : ℚ) (records : List SynRecord) (i : Nat) :
    (patch_delay_fp_inaccuracies dt records).get? i
      = (records.get? i).map fun r =>
          { r with delay := ((truncQ (r.delay / dt + 1 / 100000) : ℤ) : ℚ) * dt } := by
  unfold patch_delay_fp_inaccuracies
  by_cases h : records.length = 0
  · rw [if_pos h]
    rw [List.length_eq_zero] at h
    subst h
    simp
  · rw [if_neg h, List.get?_map]

theorem scale_U_get? (syn_params : List SynRecord) (y : ℚ)
    (extra_scale_vars : List String) (i : Nat) :
    (scale_U_param syn_params (some y) extra_scale_vars).get? i
      = (syn_params.get? i).map fun r =>
          { r with
            U := r.U * constrained_hill r.u_hill_coefficient y
            extras := r.extras.map fun p =>
              if extra_scale_vars.contains p.1
              then (p.1, p.2 * constrained_hill r.u_hill_coefficient y) else p } := by
  unfold scale_U_param
  by_cases h : syn_params.length = 0
  · rw [if_pos h]
    rw [List.length_eq_zero] at h
    subst h
    simp
  · rw [if_neg h]
    exact List.get?_map _ _ _

theorem scale_U_none (syn_params : List SynRecord) (extra_scale_vars : List String) :
    scale_U_param syn_params none extra_scale_vars = syn_params := by
  unfold scale_U_param
  by_cases h : syn_params.length = 0
  · rw [if_pos h]
  · rw [if_neg h]

theorem gsp_avail (ca : Option ℚ) (extra_scale_vars : List String) (dt : ℚ)
    (raw : List SynRecord) :
    get_synapse_parameters true ca extra_scale_vars dt raw
      = scale_U_param (patch_delay_fp_inaccuracies dt raw) ca extra_scale_vars := rfl

theorem gsp_unavail (ca : Option ℚ) (extra_scale_vars : List String) (dt : ℚ)
    (raw : List SynRecord) :
    get_synapse_parameters false ca extra_scale_vars dt raw
      = patch_delay_fp_inaccuracies dt raw := rfl

/-! ### Claim C6 — calcium-dependent U scaling -/

/-- C6.  When a calcium concentration `y` is configured and the backend
reports the `u_hill_coefficient` property, `get_synapse_parameters`
multiplies each record's U (and every declared extra scale variable) by
`(K^4 + 16)/16 * y^4 / (K^4 + y^4)` for `K` the record's hill coefficient;
when the concentration is unset, or the property is unsupported, every
record's U is returned unchanged. -/
theorem get_synapse_parameters_u_scaling (dt y : ℚ) (extra_scale_vars : List String)
    (raw : List SynRecord) (i : Nat) (r : SynRecord) (h : raw.get? i = some r) :
    (((get_synapse_parameters true (some y) extra_scale_vars dt raw).get? i).map SynRecord.U
        = some (r.U * constrained_hill r.u_hill_coefficient y))
    ∧ (((get_synapse_parameters true (some y) extra_scale_vars dt raw).get? i).map
          SynRecord.extras
        = some (r.extras.map fun p =>
            if extra_scale_vars.contains p.1
            then (p.1, p.2 * constrained_hill r.u_hill_coefficient y) else p))
    ∧ (((get_synapse_parameters true none extra_scale_vars dt raw).get? i).map SynRecord.U
        = some r.U)
    ∧ ∀ ca, ((get_synapse_parameters false ca extra_scale_vars dt raw).get? i).map SynRecord.U
        = some r.U := by
  refine ⟨?_, ?_, ?_, fun ca => ?_⟩ <;>
    simp only [gsp_avail, gsp_unavail, scale_U_none, scale_U_get?, patch_delay_get?, h,
      Option.map_some] <;> rfl

/-- Witness for C6 at a concrete record (`U = 1`, `K = 2`, `y = 2`). -/
theorem get_synapse_parameters_u_scaling_witness :
    ([(⟨1, 1, 1, 2, -1, -1, []⟩ : SynRecord)].get? 0 = some ⟨1, 1, 1, 2, -1, -1, []⟩)
    ∧ ((((get_synapse_parameters true (some 2) [] 1
            [(⟨1, 1, 1, 2, -1, -1, []⟩ : SynRecord)]).get? 0).map SynRecord.U
        = some ((1 : ℚ) * constrained_hill 2 2))
      ∧ ((((get_synapse_parameters true (some 2) [] 1
            [(⟨1, 1, 1, 2, -1, -1, []⟩ : SynRecord)]).get? 0).map SynRecord.extras)
        = some [])
      ∧ (((get_synapse_parameters true none [] 1
            [(⟨1, 1, 1, 2, -1, -1, []⟩ : SynRecord)]).get? 0).map SynRecord.U = some 1)
      ∧ ∀ ca, ((get_synapse_parameters false ca [] 1
            [(⟨1, 1, 1, 2, -1, -1, []⟩ : SynRecord)]).get? 0).map SynRecord.U = some 1) :=
  ⟨rfl, get_synapse_parameters_u_scaling 1 2 []
    [(⟨1, 1, 1, 2, -1, -1, []⟩ : SynRecord)] 0 (⟨1, 1, 1, 2, -1, -1, []⟩ : SynRecord) rfl⟩

/-! ### Claim C7 — delay correction -/

/-- Counterexample for C7 as stated: the code truncates
(`astype(i4)` / `int()`), it does not round.  At `dt = 1` and
`delay = 8/5` the code yields `1`, while `round(delay/dt + 1e-5) * dt = 2`. -/
theorem patch_delay_not_round_counterexample :
    (((patch_delay_fp_inaccuracies 1 [(⟨1, 8/5, 0, -1, -1, -1, []⟩ : SynRecord)]).get? 0).map
        SynRecord.delay = some 1)
    ∧ ((round ((8 : ℚ)/5 / 1 + 1/100000) : ℤ) : ℚ) * 1 = 2
    ∧ (1 : ℚ) ≠ 2 := by
  have ht : truncQ ((8 : ℚ)/5 / 1 + 1/100000) = 1 := by
    rw [truncQ, if_pos (by norm_num)]
    norm_num
  refine ⟨?_, ?_, by norm_num⟩
  · rw [patch_delay_get?]
    show some ((((truncQ ((8 : ℚ)/5 / 1 + 1/100000) : ℤ) : ℚ)) * 1) = some 1
    rw [ht]
    norm_num
  · rw [round_eq]
    norm_num

/-- C7 (amended).  Every record's delay is corrected to
`trunc(delay / dt + 1e-5) * dt` — truncation toward zero, not rounding — and
the corrected delay is therefore an exact integer multiple of `dt`; the
inline correction of `connection_manager.get_synapse_parameters` computes the
same value. -/
theorem patch_delay_truncates_to_multiple (dt : ℚ) (records : List SynRecord)
    (i : Nat) (r : SynRecord) (h : records.get? i = some r) :
    (((patch_delay_fp_inaccuracies dt records).get? i).map SynRecord.delay
        = some (((truncQ (r.delay / dt + 1/100000) : ℤ) : ℚ) * dt))
    ∧ (((patch_delay_fp_inaccuracies dt records).get? i).map SynRecord.delay
        = some (cm_patch_delay dt r.delay))
    ∧ ∃ n : ℤ, ((patch_delay_fp_inaccuracies dt records).get? i).map SynRecord.delay
        = some ((n : ℚ) * dt) := by
  rw [patch_delay_get?, h]
  exact ⟨rfl, rfl, truncQ (r.delay / dt + 1/100000), rfl⟩

/-- Witness for C7 (amended) at `dt = 1`, `delay = 8/5`. -/
theorem patch_delay_truncates_to_multiple_witness :
    ([(⟨1, 8/5, 0, -1, -1, -1, []⟩ : SynRecord)].get? 0
        = some (⟨1, 8/5, 0, -1, -1, -1, []⟩ : SynRecord))
    ∧ ((((patch_delay_fp_inaccuracies 1
            [(⟨1, 8/5, 0, -1, -1, -1, []⟩ : SynRecord)]).get? 0).map SynRecord.delay
        = some (((truncQ ((8:ℚ)/5 / 1 + 1/100000) : ℤ) : ℚ) * 1))
      ∧ (((patch_delay_fp_inaccuracies 1
            [(⟨1, 8/5, 0, -1, -1, -1, []⟩ : SynRecord)]).get? 0).map SynRecord.delay
        = some (cm_patch_delay 1 (8/5)))
      ∧ ∃ n : ℤ, ((patch_delay_fp_inaccuracies 1
            [(⟨1, 8/5, 0, -1, -1, -1, []⟩ : SynRecord)]).get? 0).map SynRecord.delay
        = some ((n : ℚ) * 1)) :=
  ⟨rfl, patch_delay_truncates_to_multiple 1 [(⟨1, 8/5, 0, -1, -1, -1, []⟩ : SynRecord)] 0
    (⟨1, 8/5, 0, -1, -1, -1, []⟩ : SynRecord) rfl⟩

/-! ### Claim C10 — the legacy reader never scales -/

/-- C10.  `SynReaderNRN.has_property` returns `False` for every field name,
so `_uhill_property_avail` is `False` for every legacy reader; hence calcium
U-scaling is never applied on the legacy backend (U passes through the
pipeline unchanged, whatever the configured concentration) and the
`u_hill_coefficient` and `conductance_ratio` fields of its records are
always the sentinel `-1`. -/
theorem nrn_reader_never_scales :
    (∀ field_name, nrn_has_property field_name = false)
    ∧ nrn_uhill_property_avail = false
    ∧ ∀ (getData : Nat → Nat → ℚ) (nrow : Nat) (has_nrrp : Bool) (ca : Option ℚ)
        (dt : ℚ) (i : Nat) (r : SynRecord),
        (nrn_load_synapse_parameters getData nrow has_nrrp).get? i = some r →
        r.u_hill_coefficient = -1 ∧ r.conductance_ratio = -1
        ∧ ((get_synapse_parameters nrn_uhill_property_avail ca [] dt
              (nrn_load_synapse_parameters getData nrow has_nrrp)).get? i).map SynRecord.U
            = some r.U := by
  refine ⟨fun _ => rfl, rfl, fun getData nrow has_nrrp ca dt i r h => ?_⟩
  have hr : r.u_hill_coefficient = -1 ∧ r.conductance_ratio = -1 := by
    unfold nrn_load_synapse_parameters at h
    rw [List.get?_map] at h
    cases hg : (List.range nrow).get? i with
    | none => rw [hg] at h; exact absurd h (by simp)
    | some j =>
      rw [hg] at h
      have hj := Option.some.inj h
      rw [← hj]
      exact ⟨rfl, rfl⟩
  refine ⟨hr.1, hr.2, ?_⟩
  show ((get_synapse_parameters false ca [] dt _).get? i).map SynRecord.U = some r.U
  rw [gsp_unavail, patch_delay_get?, h]
  rfl

/-- Witness for C10 with a one-row table of constant value 3. -/
theorem nrn_reader_never_scales_witness :
    ((nrn_load_synapse_parameters (fun _ _ => 3) 1 false).get? 0
        = some (⟨3, 3, 3, -1, -1, -1, []⟩ : SynRecord))
    ∧ ((⟨3, 3, 3, -1, -1, -1, []⟩ : SynRecord).u_hill_coefficient = -1
      ∧ (⟨3, 3, 3, -1, -1, -1, []⟩ : SynRecord).conductance_ratio = -1
      ∧ ((get_synapse_parameters nrn_uhill_property_avail (some 2) [] 1
            (nrn_load_synapse_parameters (fun _ _ => 3) 1 false)).get? 0).map SynRecord.U
          = some (⟨3, 3, 3, -1, -1, -1, []⟩ : SynRecord).U) :=
  ⟨rfl, (nrn_reader_never_scales.2.2) (fun _ _ => 3) 1 false (some 2) 1 0
    (⟨3, 3, 3, -1, -1, -1, []⟩ : SynRecord) rfl⟩

/-! ### Claim C5 — the gap-junction offset table

`GapJunctionManager.__init__` (connection_manager.py lines 595-617) reads
`gjinfo.txt` line by line:

    for line in open(gjfname):
        gid, offset = line.strip().split()
        self._gj_offsets.append(gj_sum)
        gj_sum += 2 * offset

`line.strip().split()` yields *strings*, and `offset` is never converted to
an integer, so `2 * offset` is string repetition and `gj_sum += 2 * offset`
adds an `int` to a `str`.  The Python dynamic semantics of these two
operators is embedded below. -/

/-- A Python value as far as this loop is concerned: an `int` or a `str`. -/
inductive PyVal where
  | int : Int → PyVal
  | str : String → PyVal
deriving DecidableEq

/-- Python `int * str` sequence repetition. -/
def pyRepeat (n : Int) (s : String) : String := String.join (List.replicate n.toNat s)

/-- Python `*` on the values occurring in the loop. -/
def pyMul : PyVal → PyVal → Except String PyVal
  | .int a, .int b => .ok (.int (a * b))
  | .int a, .str s => .ok (.str (pyRepeat a s))
  | .str s, .int a => .ok (.str (pyRepeat a s))
  | .str _, .str _ => .error "TypeError: cannot multiply sequence by non-int"

/-- Python `+` on the values occurring in the loop. -/
def pyAdd : PyVal → PyVal → Except String PyVal
  | .int a, .int b => .ok (.int (a + b))
  | .str a, .str b => .ok (.str (a ++ b))
  | _, _ => .error "TypeError: unsupported operand types for +: int and str"

/-- The offset-building loop of `GapJunctionManager.__init__`, lines 612-617.
Each line is pre-split into its two whitespace-separated tokens
`(gid, offset)`, both strings.  A raised `TypeError` aborts the constructor. -/
def gj_read_offsets : PyVal → List PyVal → List (String × String) → Except String (List PyVal)
  | _, gj_offsets, [] => .ok gj_offsets
  | gj_sum, gj_offsets, (_gid, offset) :: rest => do
    let gj_offsets := gj_offsets ++ [gj_sum]
    let two_off ← pyMul (.int 2) (.str offset)
    let gj_sum ← pyAdd gj_sum two_off
    gj_read_offsets gj_sum gj_offsets rest

/-- The constructor starts from `gj_sum = 0` and an empty offset vector. -/
def gj_offsets_init (lines : List (String × String)) : Except String (List PyVal) :=
  gj_read_offsets (.int 0) [] lines

/-- Modelled from the spec: the cumulative offset table the constructor is
documented to build — `offset[i] = offset[i-1] + 2*size[i-1]`, `offset[0] = 0`
(the integer conversion of the size column is missing from the source). -/
def gj_offsets_spec : Int → List Int → List Int
  | _, [] => []
  | acc, size :: rest => acc :: gj_offsets_spec (acc + 2 * size) rest

/-- C5 (code bug).  On the documented example input the constructor raises
`TypeError` at the first line — `offset` is a string, `2 * offset` is string
repetition and `gj_sum += 2 * offset` adds `int` to `str` — instead of
building the cumulative offsets `[0, 8, 20]` the spec describes (which the
spec-modelled table does produce on the parsed sizes). -/
theorem gj_offsets_type_error :
    gj_offsets_init [("1", "4"), ("2", "6"), ("3", "2")]
      = .error "TypeError: unsupported operand types for +: int and str"
    ∧ gj_offsets_init [("1", "4"), ("2", "6"), ("3", "2")]
        ≠ .ok [.int 0, .int 8, .int 20]
    ∧ gj_offsets_spec 0 [4, 6, 2] = [0, 8, 20] := by
  refine ⟨rfl, ?_, rfl⟩
  intro h
  have herr : (Except.error "TypeError: unsupported operand types for +: int and str"
      : Except String (List PyVal)) = .ok [.int 0, .int 8, .int 20] := h
  exact Except.noConfusion herr

/-! ### The connection index (`connection_manager.py`)

Connections are indexed by post-gid (`tgid`), each bucket ordered by pre-gid
(`sgid`).  The `Connection` class itself lives outside the four source files;
it is modelled from the spec with exactly the attributes these claims
observe: the id pair, the `disabled` flag toggled by `disable`/`enable`, and
the synapse placements (`add_synapse` appends the source row index, insertion
order = file row order). -/

structure Conn where
  sgid : Int
  tgid : Int
  disabled : Bool
  syns : List Nat
deriving DecidableEq

/-- Modelled from the spec: `Connection(sgid, tgid, ...)` as built by
`connect_all` — empty placement list, enabled. -/
def new_connection (sgid tgid : Int) : Conn := ⟨sgid, tgid, false, []⟩

/-- Modelled from the spec: `Connection.add_synapse(point, params, i)` appends
one placement; the placement is identified by its source row index `i`. -/
def add_synapse (c : Conn) (i : Nat) : Conn := { c with syns := c.syns ++ [i] }

/-- The insertion-ordered mapping post-gid to connection bucket. -/
abbrev ConnMap := List (Int × List Conn)

/-- Modelled from the spec: `OrderedDefaultDict` — a dict in insertion order
whose lookup inserts an empty bucket for a missing key (`_find_connection`,
`disable` and `enable` rely on the inserted list being live in the map). -/
def ensure_key : ConnMap → Int → ConnMap
  | [], k => [(k, [])]
  | (t, b) :: rest, k => if t = k then (t, b) :: rest else (t, b) :: ensure_key rest k

/-- Dictionary lookup (first entry with the key). -/
def map_find : ConnMap → Int → Option (List Conn)
  | [], _ => none
  | (t, b) :: rest, k => if t = k then some b else map_find rest k

/-- The bucket a key maps to (empty if the key is absent). -/
def bucket_of (m : ConnMap) (k : Int) : List Conn := (map_find m k).getD []

/-- In-place replacement of a key's bucket (Python mutates the list object
held by the dict). -/
def set_bucket (m : ConnMap) (k : Int) (b' : List Conn) : ConnMap :=
  m.map fun p => if p.1 = k then (p.1, b') else p

/-- Modelled from the spec: `utils.bin_search(cell_conns, sgid, key)` — the
leftmost insertion point of `sgid` in the bucket ordered by `sgid` (binary
search; given here as its linear specification). -/
def bin_search : List Conn → Int → Nat
  | [], _ => 0
  | c :: rest, sgid => if sgid ≤ c.sgid then 0 else bin_search rest sgid + 1

/-- `_ConnectionManagerBase` state: `_connections_map` and `_disabled_conns`
(lines 26-27). -/
structure MgrState where
  connections_map : ConnMap
  disabled_conns : ConnMap
deriving DecidableEq

def init_state : MgrState := ⟨[], []⟩

/-- `_find_connection` (lines 343-356).  Returns the (possibly freshly
created) map, the destination bucket and the position: `none` when
`exact` and the pair is absent, otherwise the binary-search position. -/
def find_connection (m : ConnMap) (sgid tgid : Int) (exact : Bool) :
    ConnMap × List Conn × Option Nat :=
  let m := ensure_key m tgid
  let cell_conns := bucket_of m tgid
  let pos := bin_search cell_conns sgid
  if exact ∧ (cell_conns.get? pos).map Conn.sgid ≠ some sgid then (m, cell_conns, none)
  else (m, cell_conns, some pos)

/-- `store_connection` (lines 368-379): insert at the found position unless
the pair already exists, in which case an error is reported (the returned
flag) and nothing is stored. -/
def store_connection (st : MgrState) (conn : Conn) : MgrState × Bool :=
  let r := find_connection st.connections_map conn.sgid conn.tgid false
  let m := r.1
  let cell_conns := r.2.1
  let pos := r.2.2.getD 0
  match cell_conns.get? pos with
  | some x =>
    if x.sgid = conn.sgid then ({ st with connections_map := m }, true)
    else ({ st with connections_map :=
              set_bucket m conn.tgid (List.insertIdx pos conn cell_conns) }, false)
  | none => ({ st with connections_map :=
              set_bucket m conn.tgid (List.insertIdx pos conn cell_conns) }, false)

/-- `get_connection` (lines 359-365) as a pure lookup (the defaultdict side
effect of the underlying `_find_connection` is dropped here; it only creates
an empty bucket). -/
def get_connection (m : ConnMap) (sgid tgid : Int) : Option Conn :=
  let r := find_connection m sgid tgid true
  r.2.2.bind fun i => r.2.1.get? i

/-- `all_connections` (lines 382-385): chain of all buckets in stored order. -/
def all_connections (st : MgrState) : List Conn :=
  (st.connections_map.map Prod.snd).join

/-- `delete` (lines 401-412): exact removal; warns (returned flag) and no-ops
when the pair is absent. -/
def delete (st : MgrState) (sgid tgid : Int) : MgrState × Bool :=
  let r := find_connection st.connections_map sgid tgid true
  match r.2.2 with
  | none => ({ st with connections_map := r.1 }, true)
  | some idx =>
    ({ st with connections_map := set_bucket r.1 tgid (r.2.1.eraseIdx idx) }, false)

/-- `disable` (lines 415-430): pop from the active bucket, append to the
disabled bucket, flag the connection disabled (`Connection.disable` is
modelled from the spec as setting the disabled flag; the optional
conductance zeroing acts on external synapse objects, out of scope). -/
def disable (st : MgrState) (sgid tgid : Int) (_also_zero_conductance : Bool) :
    MgrState × Bool :=
  let r := find_connection st.connections_map sgid tgid true
  match r.2.2 with
  | none => ({ st with connections_map := r.1 }, true)
  | some idx =>
    match r.2.1.get? idx with
    | none => ({ st with connections_map := r.1 }, true)
    | some c =>
      let dm := ensure_key st.disabled_conns tgid
      ({ connections_map := set_bucket r.1 tgid (r.2.1.eraseIdx idx)
         disabled_conns := set_bucket dm tgid
           (bucket_of dm tgid ++ [{ c with disabled := true }]) }, false)

/-- `enable` (lines 433-444): linear scan of the disabled bucket for the
first matching sgid; re-store into the active index, remove from the
disabled bucket, clear the flag (`c.enable()` mutates the object just
stored, modelled by storing the cleared record). -/
def enable (st : MgrState) (sgid tgid : Int) : MgrState × Bool :=
  let dm := ensure_key st.disabled_conns tgid
  let tgid_conns := bucket_of dm tgid
  match tgid_conns.findIdx? (fun c => c.sgid == sgid) with
  | none => ({ st with disabled_conns := dm }, true)
  | some i =>
    match tgid_conns.get? i with
    | none => ({ st with disabled_conns := dm }, true)
    | some c =>
      let st1 := (store_connection { st with disabled_conns := dm }
        { c with disabled := false }).1
      ({ st1 with disabled_conns :=
          set_bucket st1.disabled_conns tgid (tgid_conns.eraseIdx i) }, false)

/-! ### Group operations (lines 447-497)

`_find_group_in` is a generator driven by the caller: it enumerates each
bucket while the caller removes the yielded index from the very list being
enumerated.  After a removal the enumerator's cursor still advances, so the
element that slid into the removed slot is never yielded.  The loops below
replay exactly that cursor semantics. -/

/-- `None` filters match every gid (`post_gids`/`pre_gids`). -/
def matches_filter (filt : Option (List Int)) (g : Int) : Bool :=
  match filt with
  | none => true
  | some gids => gids.contains g

/-- The per-bucket cursor loop of `delete_group`: the entry under the cursor
is deleted when it matches, and the cursor then advances — so the element
that slides into the deleted slot is *retained unexamined* (it is the
follower `d` below), which is exactly the enumerate-while-deleting
behaviour of the source. -/
def delete_group_bucket (pre_gids : Option (List Int)) : List Conn → List Conn
  | [] => []
  | c :: rest =>
    if matches_filter pre_gids c.sgid then
      match rest with
      | [] => []
      | d :: rest' => d :: delete_group_bucket pre_gids rest'
    else c :: delete_group_bucket pre_gids rest

/-- `delete_group` (lines 447-456). -/
def delete_group (st : MgrState) (post_gids pre_gids : Option (List Int)) : MgrState :=
  { st with connections_map := st.connections_map.map fun p =>
      if matches_filter post_gids p.1 then (p.1, delete_group_bucket pre_gids p.2) else p }

/-- The same cursor loop when the caller pops the match (`disable_group`,
`enable_group`): returns the remaining bucket and the popped entries in pop
order; after a pop the slid-in follower `d` is retained unexamined. -/
def pop_group_bucket (pre_gids : Option (List Int)) : List Conn → List Conn × List Conn
  | [] => ([], [])
  | c :: rest =>
    if matches_filter pre_gids c.sgid then
      match rest with
      | [] => ([], [c])
      | d :: rest' =>
        let r := pop_group_bucket pre_gids rest'
        (d :: r.1, c :: r.2)
    else
      let r := pop_group_bucket pre_gids rest
      (c :: r.1, r.2)

/-- Append to a defaultdict bucket (`self._disabled_conns[tgid].append(...)`). -/
def odd_append (m : ConnMap) (k : Int) (c : Conn) : ConnMap :=
  let m := ensure_key m k
  set_bucket m k (bucket_of m k ++ [c])

/-- `disable_group` (lines 459-470): pop every *yielded* match from its
active bucket, append it (flagged) to the disabled bucket of its tgid. -/
def disable_group (st : MgrState) (post_gids pre_gids : Option (List Int))
    (_also_zero_conductance : Bool) : MgrState :=
  let processed := st.connections_map.map fun p =>
    if matches_filter post_gids p.1
    then ((p.1, (pop_group_bucket pre_gids p.2).1), (pop_group_bucket pre_gids p.2).2)
    else ((p.1, p.2), [])
  { connections_map := processed.map Prod.fst
    disabled_conns := ((processed.map Prod.snd).join).foldl
      (fun dm c => odd_append dm c.tgid { c with disabled := true }) st.disabled_conns }

/-- `enable_group` (lines 473-479): pop every *yielded* match from its
disabled bucket and re-store it (cleared) into the active index. -/
def enable_group (st : MgrState) (post_gids pre_gids : Option (List Int)) : MgrState :=
  let processed := st.disabled_conns.map fun p =>
    if matches_filter post_gids p.1
    then ((p.1, (pop_group_bucket pre_gids p.2).1), (pop_group_bucket pre_gids p.2).2)
    else ((p.1, p.2), [])
  ((processed.map Prod.snd).join).foldl
    (fun s c => (store_connection s { c with disabled := false }).1)
    { st with disabled_conns := processed.map Prod.fst }

/-! ### `connect_all` (lines 56-103)

Rows for one post-gid are processed in file order; consecutive rows with the
same sgid extend the current connection, a new sgid opens (and immediately
stores) a new one.  Only the row's sgid matters to the claims, so rows are
given as the list of sgids; `add_synapse` records the row index.  Python
appends synapses to the *object* just stored — the bucket holds the same
object — which the pure model replays by rewriting the unique bucket entry
with that pair whenever the current run's store succeeded. -/

/-- Rewrite the (unique, when well-formed) entry of `c.tgid`'s bucket whose
sgid is `c.sgid` with `c` — the pure image of mutating the aliased object. -/
def update_stored (st : MgrState) (c : Conn) : MgrState :=
  { st with connections_map := st.connections_map.map fun p =>
      if p.1 = c.tgid then (p.1, p.2.map fun x => if x.sgid = c.sgid then c else x) else p }

/-- One `connect_all` row step.  The accumulator carries the state, the
current connection with its stored-successfully flag (`None` before the
first row), and the count of duplicate-store errors reported so far. -/
def connect_step (tgid : Int) (circuit_target : Option (List Int))
    (acc : MgrState × Option (Conn × Bool) × Nat) (row : Nat × Int) :
    MgrState × Option (Conn × Bool) × Nat :=
  let (st, cur, errs) := acc
  let (i, sgid) := row
  let skip := match circuit_target with
    | some tg => !tg.contains sgid
    | none => false
  if skip then (st, cur, errs)
  else
    match cur with
    | some (c, stored) =>
      if c.sgid = sgid then
        let c' := add_synapse c i
        ((if stored then update_stored st c' else st), some (c', stored), errs)
      else
        let cn := new_connection sgid tgid
        let res := store_connection st cn
        let c' := add_synapse cn i
        ((if res.2 then res.1 else update_stored res.1 c'),
          some (c', !res.2), errs + (if res.2 then 1 else 0))
    | none =>
      let cn := new_connection sgid tgid
      let res := store_connection st cn
      let c' := add_synapse cn i
      ((if res.2 then res.1 else update_stored res.1 c'),
        some (c', !res.2), errs + (if res.2 then 1 else 0))

/-- All rows of one post-gid (`for i, syn_params in enumerate(...)`). -/
def connect_rows (tgid : Int) (circuit_target : Option (List Int)) (st : MgrState)
    (rows : List Int) : MgrState × Nat :=
  let r := rows.enum.foldl (connect_step tgid circuit_target) (st, none, 0)
  (r.1, r.2.2)

/-- `connect_all`: every requested post-gid with its parameter rows, in
order.  The second component counts the duplicate-store errors logged by
`store_connection` over the whole pass. -/
def connect_all (st : MgrState) (circuit_target : Option (List Int))
    (gid_rows : List (Int × List Int)) : MgrState × Nat :=
  gid_rows.foldl
    (fun acc p =>
      let r := connect_rows p.1 circuit_target acc.1 p.2
      (r.1, acc.2 + r.2))
    (st, 0)

/-! ### Index invariants and helper lemmas -/

/-- A bucket is strictly ascending by sgid. -/
def BucketSorted (b : List Conn) : Prop := List.Pairwise (fun a b => a.sgid < b.sgid) b

/-- Well-formedness of the active map: keys are unique, every connection
lives in the bucket of its own tgid, and buckets are strictly sorted. -/
def WfCM (m : ConnMap) : Prop :=
  (m.map Prod.fst).Nodup ∧ ∀ p ∈ m, (∀ c ∈ p.2, c.tgid = p.1) ∧ BucketSorted p.2

/-- Well-formedness of the disabled map (no ordering: buckets are appended). -/
def WfDM (m : ConnMap) : Prop :=
  (m.map Prod.fst).Nodup ∧ ∀ p ∈ m, ∀ c ∈ p.2, c.tgid = p.1

/-- The pair `(s, t)` occurs somewhere in the map. -/
def PairInP (m : ConnMap) (s t : Int) : Prop :=
  ∃ p ∈ m, p.1 = t ∧ ∃ c ∈ p.2, c.sgid = s

/-- All connections of a map, bucket order. -/
def join_all (m : ConnMap) : List Conn := (m.map Prod.snd).join

theorem all_connections_eq (st : MgrState) :
    all_connections st = join_all st.connections_map := rfl

theorem map_find_cons (t : Int) (b : List Conn) (rest : ConnMap) (k : Int) :
    map_find ((t, b) :: rest) k = if t = k then some b else map_find rest k := rfl

theorem ensure_key_cons (t : Int) (b : List Conn) (rest : ConnMap) (k : Int) :
    ensure_key ((t, b) :: rest) k
      = if t = k then (t, b) :: rest else (t, b) :: ensure_key rest k := rfl

theorem bucket_of_cons (t : Int) (b : List Conn) (rest : ConnMap) (k : Int) :
    bucket_of ((t, b) :: rest) k = if t = k then b else bucket_of rest k := by
  rw [bucket_of, map_find_cons]
  by_cases hk : t = k
  · rw [if_pos hk, if_pos hk]
    rfl
  · rw [if_neg hk, if_neg hk, bucket_of]

theorem map_find_mem {m : ConnMap} {k : Int} {b : List Conn}
    (h : map_find m k = some b) : (k, b) ∈ m := by
  induction m with
  | nil => exact absurd h (by simp [map_find])
  | cons hd rest ih =>
    obtain ⟨t, b0⟩ := hd
    rw [map_find] at h
    by_cases hk : t = k
    · rw [if_pos hk] at h
      cases Option.some.inj h
      subst hk
      exact List.mem_cons_self _ _
    · rw [if_neg hk] at h
      exact List.mem_cons_of_mem _ (ih h)

theorem mem_map_find {m : ConnMap} {k : Int} {b : List Conn}
    (hnd : (m.map Prod.fst).Nodup) (hm : (k, b) ∈ m) : map_find m k = some b := by
  induction m with
  | nil => cases hm
  | cons hd rest ih =>
    obtain ⟨t, b0⟩ := hd
    rw [List.map_cons, List.nodup_cons] at hnd
    rcases List.mem_cons.mp hm with h | h
    · cases h
      rw [map_find, if_pos rfl]
    · rw [map_find]
      have hk : t ≠ k := fun hpk =>
        hnd.1 (hpk ▸ List.mem_map.mpr ⟨(k, b), h, rfl⟩)
      rw [if_neg hk]
      exact ih hnd.2 h

theorem ensure_key_of_found {m : ConnMap} {k : Int} {b : List Conn}
    (h : map_find m k = some b) : ensure_key m k = m := by
  induction m with
  | nil => exact absurd h (by simp [map_find])
  | cons hd rest ih =>
    obtain ⟨t, b0⟩ := hd
    rw [map_find] at h
    rw [ensure_key]
    by_cases hk : t = k
    · rw [if_pos hk]
    · rw [if_neg hk] at h
      rw [if_neg hk, ih h]

theorem map_find_ensure_key (m : ConnMap) (k : Int) :
    map_find (ensure_key m k) k = some (bucket_of m k) := by
  induction m with
  | nil => simp [ensure_key, map_find, bucket_of]
  | cons hd rest ih =>
    obtain ⟨t, b0⟩ := hd
    rw [ensure_key_cons]
    by_cases hk : t = k
    · rw [if_pos hk, map_find_cons, if_pos hk, bucket_of_cons, if_pos hk]
    · rw [if_neg hk, map_find_cons, if_neg hk, ih, bucket_of_cons, if_neg hk]

theorem bucket_of_ensure_key (m : ConnMap) (k : Int) :
    bucket_of (ensure_key m k) k = bucket_of m k := by
  rw [bucket_of, map_find_ensure_key]
  rfl

theorem map_find_ensure_key_mono {m : ConnMap} {k : Int} {b : List Conn} (k' : Int)
    (h : map_find m k = some b) : map_find (ensure_key m k') k = some b := by
  induction m with
  | nil => exact absurd h (by simp [map_find])
  | cons hd rest ih =>
    obtain ⟨t, b0⟩ := hd
    rw [map_find] at h
    rw [ensure_key]
    by_cases hk' : t = k'
    · rw [if_pos hk', map_find]
      exact h
    · rw [if_neg hk', map_find]
      by_cases hk : t = k
      · rw [if_pos hk]
        rwa [if_pos hk] at h
      · rw [if_neg hk]
        rw [if_neg hk] at h
        exact ih h

theorem join_all_cons (t : Int) (b : List Conn) (rest : ConnMap) :
    join_all ((t, b) :: rest) = b ++ join_all rest := by
  simp [join_all]

theorem join_all_ensure_key (m : ConnMap) (k : Int) :
    join_all (ensure_key m k) = join_all m := by
  induction m with
  | nil => simp [ensure_key, join_all]
  | cons hd rest ih =>
    obtain ⟨t, b0⟩ := hd
    rw [ensure_key]
    by_cases hk : t = k
    · rw [if_pos hk]
    · rw [if_neg hk, join_all_cons, join_all_cons, ih]

theorem ensure_key_keys (m : ConnMap) (k : Int) :
    (ensure_key m k).map Prod.fst = m.map Prod.fst
    ∨ (ensure_key m k).map Prod.fst = m.map Prod.fst ++ [k] := by
  induction m with
  | nil => right; simp [ensure_key]
  | cons hd rest ih =>
    obtain ⟨t, b0⟩ := hd
    rw [ensure_key]
    by_cases hk : t = k
    · left; rw [if_pos hk]
    · rw [if_neg hk]
      rcases ih with h | h
      · left; simp [h]
      · right; simp [h]

theorem set_bucket_cons (t : Int) (b : List Conn) (rest : ConnMap) (k : Int)
    (b' : List Conn) :
    set_bucket ((t, b) :: rest) k b'
      = (if t = k then (t, b') else (t, b)) :: set_bucket rest k b' := rfl

theorem set_bucket_keys (m : ConnMap) (k : Int) (b' : List Conn) :
    (set_bucket m k b').map Prod.fst = m.map Prod.fst := by
  induction m with
  | nil => rfl
  | cons hd rest ih =>
    obtain ⟨t, b0⟩ := hd
    rw [set_bucket_cons, List.map_cons, List.map_cons, ih]
    by_cases hk : t = k
    · rw [if_pos hk]
    · rw [if_neg hk]

theorem set_bucket_of_not_mem {m : ConnMap} {k : Int} (b' : List Conn)
    (h : k ∉ m.map Prod.fst) : set_bucket m k b' = m := by
  induction m with
  | nil => rfl
  | cons hd rest ih =>
    obtain ⟨t, b0⟩ := hd
    rw [List.map_cons, List.mem_cons] at h
    push_neg at h
    rw [set_bucket_cons, if_neg (fun hc => h.1 hc.symm), ih h.2]

theorem map_find_set_bucket {m : ConnMap} {k : Int} {b : List Conn} (b' : List Conn)
    (h : map_find m k = some b) : map_find (set_bucket m k b') k = some b' := by
  induction m with
  | nil => exact absurd h (by simp [map_find])
  | cons hd rest ih =>
    obtain ⟨t, b0⟩ := hd
    rw [map_find] at h
    rw [set_bucket_cons]
    by_cases hk : t = k
    · rw [if_pos hk, map_find, if_pos hk]
    · rw [if_neg hk, map_find, if_neg hk]
      rw [if_neg hk] at h
      exact ih h

theorem map_find_set_bucket_other {m : ConnMap} {k k' : Int} (b' : List Conn)
    (h : k' ≠ k) : map_find (set_bucket m k b') k' = map_find m k' := by
  induction m with
  | nil => rfl
  | cons hd rest ih =>
    obtain ⟨t, b0⟩ := hd
    rw [set_bucket_cons]
    by_cases hk : t = k
    · rw [if_pos hk, map_find, map_find, if_neg (hk ▸ fun hc => h hc.symm),
        if_neg (hk ▸ fun hc => h hc.symm)]
      exact ih
    · rw [if_neg hk, map_find, map_find]
      by_cases ht : t = k'
      · rw [if_pos ht, if_pos ht]
      · rw [if_neg ht, if_neg ht]
        exact ih

/-! ### Bucket-level view of `store_connection` -/

/-- The bucket-level effect of `store_connection`: position by `bin_search`,
report a duplicate, or insert. -/
def store_bucket (cell : List Conn) (conn : Conn) : List Conn × Bool :=
  let pos := bin_search cell conn.sgid
  match cell.get? pos with
  | some x =>
    if x.sgid = conn.sgid then (cell, true) else (List.insertIdx pos conn cell, false)
  | none => (List.insertIdx pos conn cell, false)

/-- The map-level effect of `store_connection`. -/
def store_map (m : ConnMap) (c : Conn) : ConnMap × Bool :=
  if (store_bucket (bucket_of (ensure_key m c.tgid) c.tgid) c).2
  then (ensure_key m c.tgid, true)
  else (set_bucket (ensure_key m c.tgid) c.tgid
          (store_bucket (bucket_of (ensure_key m c.tgid) c.tgid) c).1, false)

theorem store_connection_eq (st : MgrState) (c : Conn) :
    store_connection st c
      = ({ st with connections_map := (store_map st.connections_map c).1 },
         (store_map st.connections_map c).2) := by
  have hfind : find_connection st.connections_map c.sgid c.tgid false
      = (ensure_key st.connections_map c.tgid,
         bucket_of (ensure_key st.connections_map c.tgid) c.tgid,
         some (bin_search (bucket_of (ensure_key st.connections_map c.tgid) c.tgid) c.sgid)) := by
    rw [find_connection, if_neg (fun h => absurd h.1 (by decide))]
  simp only [store_connection, store_map, store_bucket, hfind, Option.getD_some]
  cases hg : (bucket_of (ensure_key st.connections_map c.tgid) c.tgid).get?
      (bin_search (bucket_of (ensure_key st.connections_map c.tgid) c.tgid) c.sgid) with
  | none => rfl
  | some x =>
    by_cases hx : x.sgid = c.sgid
    · simp [hx]
    · simp [hx]

/-! ### `bin_search` and `store_bucket` on sorted buckets -/

theorem bin_search_nil (s : Int) : bin_search [] s = 0 := rfl

theorem bin_search_cons (x : Conn) (xs : List Conn) (s : Int) :
    bin_search (x :: xs) s = if s ≤ x.sgid then 0 else bin_search xs s + 1 := rfl

theorem bin_search_get_of_mem {b : List Conn} {c : Conn}
    (hs : BucketSorted b) (hc : c ∈ b) : b.get? (bin_search b c.sgid) = some c := by
  induction b with
  | nil => cases hc
  | cons x xs ih =>
    rw [bin_search_cons]
    rcases List.mem_cons.mp hc with h | h
    · subst h
      rw [if_pos le_rfl]
      rfl
    · have hlt : x.sgid < c.sgid := (List.pairwise_cons.mp hs).1 c h
      rw [if_neg (not_le.mpr hlt)]
      exact ih (List.pairwise_cons.mp hs).2 h

theorem store_bucket_nil (c : Conn) : store_bucket [] c = ([c], false) := rfl

theorem store_bucket_cons_dup {x : Conn} (xs : List Conn) {c : Conn}
    (h : x.sgid = c.sgid) : store_bucket (x :: xs) c = (x :: xs, true) := by
  rw [store_bucket]
  have hle : c.sgid ≤ x.sgid := le_of_eq h.symm
  rw [bin_search_cons, if_pos hle]
  simp only [List.get?]
  rw [if_pos h]

theorem store_bucket_cons_lt {x : Conn} (xs : List Conn) {c : Conn}
    (h : c.sgid < x.sgid) : store_bucket (x :: xs) c = (c :: x :: xs, false) := by
  rw [store_bucket]
  rw [bin_search_cons, if_pos (le_of_lt h)]
  simp only [List.get?]
  rw [if_neg (fun he => absurd he (ne_of_gt h))]
  rfl

theorem store_bucket_cons_gt {x : Conn} (xs : List Conn) {c : Conn}
    (h : x.sgid < c.sgid) :
    store_bucket (x :: xs) c
      = (x :: (store_bucket xs c).1, (store_bucket xs c).2) := by
  rw [store_bucket, store_bucket]
  rw [bin_search_cons, if_neg (not_le.mpr h)]
  simp only [List.get?]
  cases hg : xs.get? (bin_search xs c.sgid) with
  | none => rfl
  | some y =>
    by_cases hy : y.sgid = c.sgid
    · simp [hy]
    · simp [hy]

theorem store_bucket_not_mem {b : List Conn} {c : Conn}
    (hs : BucketSorted b) (h : c.sgid ∉ b.map Conn.sgid) :
    (store_bucket b c).2 = false
    ∧ (store_bucket b c).1.Perm (c :: b)
    ∧ BucketSorted (store_bucket b c).1 := by
  induction b with
  | nil =>
    rw [store_bucket_nil]
    exact ⟨rfl, List.Perm.refl _, List.pairwise_singleton _ _⟩
  | cons x xs ih =>
    rw [List.map_cons, List.mem_cons] at h
    push_neg at h
    rcases lt_trichotomy c.sgid x.sgid with hlt | heq | hgt
    · rw [store_bucket_cons_lt xs hlt]
      refine ⟨rfl, List.Perm.refl _, ?_⟩
      rw [BucketSorted, List.pairwise_cons]
      refine ⟨fun y hy => ?_, hs⟩
      rcases List.mem_cons.mp hy with h1 | h1
      · rw [h1]; exact hlt
      · exact lt_trans hlt ((List.pairwise_cons.mp hs).1 y h1)
    · exact absurd heq h.1
    · rw [store_bucket_cons_gt xs hgt]
      have hxs : BucketSorted xs := (List.pairwise_cons.mp hs).2
      obtain ⟨he, hperm, hsort⟩ := ih hxs h.2
      refine ⟨he, ?_, ?_⟩
      · exact (hperm.cons x).trans (List.Perm.swap c x xs)
      · rw [BucketSorted, List.pairwise_cons]
        refine ⟨fun y hy => ?_, hsort⟩
        rcases List.mem_cons.mp ((hperm.mem_iff).mp hy) with h1 | h1
        · rw [h1]; exact hgt
        · exact (List.pairwise_cons.mp hs).1 y h1

theorem store_bucket_mem {b : List Conn} {c : Conn}
    (hs : BucketSorted b) (h : c.sgid ∈ b.map Conn.sgid) : store_bucket b c = (b, true) := by
  rw [List.mem_map] at h
  obtain ⟨x, hx, hxe⟩ := h
  have hget : b.get? (bin_search b x.sgid) = some x := bin_search_get_of_mem hs hx
  rw [store_bucket, ← hxe, hget]
  simp

/-! ### Further map lemmas -/

theorem map_find_none {m : ConnMap} {k : Int} (h : map_find m k = none) :
    k ∉ m.map Prod.fst := by
  induction m with
  | nil => simp
  | cons hd rest ih =>
    obtain ⟨t, b⟩ := hd
    rw [map_find_cons] at h
    by_cases hk : t = k
    · rw [if_pos hk] at h
      cases h
    · rw [if_neg hk] at h
      rw [List.map_cons, List.mem_cons]
      push_neg
      exact ⟨fun hc => hk hc.symm, ih h⟩

theorem ensure_key_of_missing {m : ConnMap} {k : Int} (h : map_find m k = none) :
    ensure_key m k = m ++ [(k, [])] := by
  induction m with
  | nil => rfl
  | cons hd rest ih =>
    obtain ⟨t, b⟩ := hd
    rw [map_find_cons] at h
    by_cases hk : t = k
    · rw [if_pos hk] at h
      cases h
    · rw [if_neg hk] at h
      rw [ensure_key_cons, if_neg hk, ih h, List.cons_append]

theorem set_bucket_append (m1 m2 : ConnMap) (k : Int) (b' : List Conn) :
    set_bucket (m1 ++ m2) k b' = set_bucket m1 k b' ++ set_bucket m2 k b' := by
  simp [set_bucket]

theorem join_all_append (m1 m2 : ConnMap) :
    join_all (m1 ++ m2) = join_all m1 ++ join_all m2 := by
  simp [join_all]

theorem join_all_set_bucket {m : ConnMap} {t : Int} {b : List Conn}
    (hnd : (m.map Prod.fst).Nodup) (hf : map_find m t = some b) (b' : List Conn) :
    ∃ l1 l2, join_all m = l1 ++ b ++ l2
      ∧ join_all (set_bucket m t b') = l1 ++ b' ++ l2 := by
  induction m with
  | nil => exact absurd hf (by simp [map_find])
  | cons hd rest ih =>
    obtain ⟨t0, b0⟩ := hd
    rw [List.map_cons, List.nodup_cons] at hnd
    rw [map_find_cons] at hf
    by_cases hk : t0 = t
    · rw [if_pos hk] at hf
      cases Option.some.inj hf
      have hrest : t ∉ rest.map Prod.fst := hk ▸ hnd.1
      refine ⟨[], join_all rest, ?_, ?_⟩
      · rw [join_all_cons]
        simp
      · rw [set_bucket_cons, if_pos hk, join_all_cons, set_bucket_of_not_mem b' hrest]
        simp
    · rw [if_neg hk] at hf
      obtain ⟨l1, l2, h1, h2⟩ := ih hnd.2 hf
      refine ⟨b0 ++ l1, l2, ?_, ?_⟩
      · rw [join_all_cons, h1]
        simp [List.append_assoc]
      · rw [set_bucket_cons, if_neg hk, join_all_cons, h2]
        simp [List.append_assoc]

theorem wf_set_bucket {m : ConnMap} {t : Int} {b' : List Conn}
    (hw : WfCM m) (hs : BucketSorted b') (ht : ∀ x ∈ b', x.tgid = t) :
    WfCM (set_bucket m t b') := by
  refine ⟨by rw [set_bucket_keys]; exact hw.1, fun p hp => ?_⟩
  rw [set_bucket, List.mem_map] at hp
  obtain ⟨q, hq, hpq⟩ := hp
  by_cases hqt : q.1 = t
  · rw [if_pos hqt] at hpq
    rw [← hpq]
    exact ⟨fun x hx => (ht x hx).trans hqt.symm, hs⟩
  · rw [if_neg hqt] at hpq
    rw [← hpq]
    exact hw.2 q hq

theorem pairInP_iff_join {m : ConnMap} (hw : WfCM m) (s t : Int) :
    PairInP m s t ↔ ∃ c ∈ join_all m, c.sgid = s ∧ c.tgid = t := by
  constructor
  · rintro ⟨p, hp, hpt, c, hc, hcs⟩
    refine ⟨c, ?_, hcs, ?_⟩
    · exact List.mem_join.mpr ⟨p.2, List.mem_map.mpr ⟨p, hp, rfl⟩, hc⟩
    · rw [(hw.2 p hp).1 c hc, hpt]
  · rintro ⟨c, hc, hcs, hct⟩
    obtain ⟨b, hb, hcb⟩ := List.mem_join.mp hc
    obtain ⟨p, hp, hpb⟩ := List.mem_map.mp hb
    refine ⟨p, hp, ?_, c, hpb ▸ hcb, hcs⟩
    rw [← hct, (hw.2 p hp).1 c (hpb ▸ hcb)]

instance (m : ConnMap) (s t : Int) : Decidable (PairInP m s t) :=
  decidable_of_iff (∃ p ∈ m, p.1 = t ∧ ∃ c ∈ p.2, c.sgid = s) Iff.rfl

instance (b : List Conn) : Decidable (BucketSorted b) :=
  decidable_of_iff (List.Pairwise (fun a c : Conn => a.sgid < c.sgid) b) Iff.rfl

instance (m : ConnMap) : Decidable (WfCM m) :=
  decidable_of_iff
    ((m.map Prod.fst).Nodup ∧ ∀ p ∈ m, (∀ c ∈ p.2, c.tgid = p.1) ∧ BucketSorted p.2) Iff.rfl

instance (m : ConnMap) : Decidable (WfDM m) :=
  decidable_of_iff ((m.map Prod.fst).Nodup ∧ ∀ p ∈ m, ∀ c ∈ p.2, c.tgid = p.1) Iff.rfl

/-! ### The two behaviours of `store_map` -/

theorem store_map_present {m : ConnMap} {c : Conn}
    (hw : WfCM m) (hp : PairInP m c.sgid c.tgid) : store_map m c = (m, true) := by
  obtain ⟨p, hpm, hpt, x, hx, hxs⟩ := hp
  obtain ⟨t0, b⟩ := p
  rcases hpt with rfl
  have hf : map_find m c.tgid = some b := mem_map_find hw.1 hpm
  have hE : ensure_key m c.tgid = m := ensure_key_of_found hf
  have hcell : bucket_of (ensure_key m c.tgid) c.tgid = b := by
    rw [hE, bucket_of, hf]
    rfl
  have hsb : store_bucket b c = (b, true) :=
    store_bucket_mem (hw.2 _ hpm).2 (List.mem_map.mpr ⟨x, hx, hxs⟩)
  rw [store_map, hcell, hsb, if_pos rfl, hE]

theorem store_map_ok {m : ConnMap} {c : Conn}
    (hw : WfCM m) (hnp : ¬ PairInP m c.sgid c.tgid) :
    (store_map m c).2 = false
    ∧ WfCM (store_map m c).1
    ∧ (join_all (store_map m c).1).Perm (c :: join_all m) := by
  cases hf : map_find m c.tgid with
  | some b =>
    have hE : ensure_key m c.tgid = m := ensure_key_of_found hf
    have hcell : bucket_of (ensure_key m c.tgid) c.tgid = b := by
      rw [hE, bucket_of, hf]
      rfl
    have hmem : (c.tgid, b) ∈ m := map_find_mem hf
    have hprops := hw.2 _ hmem
    have hnotmem : c.sgid ∉ b.map Conn.sgid := by
      intro hcm
      rw [List.mem_map] at hcm
      obtain ⟨x, hx, hxs⟩ := hcm
      exact hnp ⟨(c.tgid, b), hmem, rfl, x, hx, hxs⟩
    obtain ⟨he, hperm, hsort⟩ := store_bucket_not_mem hprops.2 hnotmem
    have hsm : store_map m c = (set_bucket m c.tgid (store_bucket b c).1, false) := by
      rw [store_map, hcell, hE, if_neg (fun hcond => by rw [he] at hcond; cases hcond)]
    have htg : ∀ x ∈ (store_bucket b c).1, x.tgid = c.tgid := by
      intro x hx
      rcases List.mem_cons.mp (hperm.mem_iff.mp hx) with h1 | h1
      · rw [h1]
      · exact hprops.1 x h1
    obtain ⟨l1, l2, hj1, hj2⟩ := join_all_set_bucket hw.1 hf (store_bucket b c).1
    refine ⟨by rw [hsm], by rw [hsm]; exact wf_set_bucket hw hsort htg, ?_⟩
    rw [hsm]
    show (join_all (set_bucket m c.tgid (store_bucket b c).1)).Perm (c :: join_all m)
    rw [hj2, hj1]
    have s1 : (l1 ++ (store_bucket b c).1 ++ l2).Perm (l1 ++ (c :: b) ++ l2) :=
      (hperm.append_left l1).append_right l2
    have s2 : (l1 ++ (c :: b) ++ l2).Perm (c :: (l1 ++ b ++ l2)) := by
      simp only [List.append_assoc, List.cons_append]
      exact List.perm_middle
    exact s1.trans s2
  | none =>
    have hE : ensure_key m c.tgid = m ++ [(c.tgid, [])] := ensure_key_of_missing hf
    have hcell : bucket_of (ensure_key m c.tgid) c.tgid = [] := by
      rw [bucket_of, map_find_ensure_key, bucket_of, hf]
      rfl
    have hkeys : c.tgid ∉ m.map Prod.fst := map_find_none hf
    have hsm : store_map m c = (m ++ [(c.tgid, [c])], false) := by
      rw [store_map, hcell, store_bucket_nil,
        if_neg (fun hcond => Bool.noConfusion hcond), hE, set_bucket_append,
        set_bucket_of_not_mem [c] hkeys, set_bucket_cons, if_pos rfl]
      rfl
    refine ⟨by rw [hsm], ?_, ?_⟩
    · rw [hsm]
      refine ⟨?_, fun p hp => ?_⟩
      · rw [List.map_append, List.nodup_append]
        refine ⟨hw.1, List.nodup_singleton _, fun a ha hb => ?_⟩
        rw [List.map_cons, List.map_nil, List.mem_singleton] at hb
        subst hb
        exact hkeys ha
      · rcases List.mem_append.mp hp with h1 | h1
        · exact hw.2 p h1
        · rw [List.mem_singleton] at h1
          rw [h1]
          exact ⟨fun x hx => by rw [List.mem_singleton] at hx; rw [hx], List.pairwise_singleton _ _⟩
    · rw [hsm, join_all_append]
      show (join_all m ++ join_all [(c.tgid, [c])]).Perm (c :: join_all m)
      have : join_all [(c.tgid, [c])] = [c] := by simp [join_all]
      rw [this]
      exact List.perm_append_singleton c (join_all m)

/-! ### Claims C1 and C2 -/

/-- The fold of `store_connection` over a list of fresh connections, from an
empty manager. -/
def store_all (l : List Conn) : MgrState :=
  l.foldl (fun st c => (store_connection st c).1) init_state

theorem store_fold_map (l : List Conn) (st : MgrState) :
    (l.foldl (fun s c => (store_connection s c).1) st).connections_map
      = l.foldl (fun m c => (store_map m c).1) st.connections_map := by
  induction l generalizing st with
  | nil => rfl
  | cons c rest ih =>
    rw [List.foldl_cons, List.foldl_cons, ih, store_connection_eq]

theorem store_fold_ok (l : List Conn) (m : ConnMap)
    (hw : WfCM m) (hnp : ∀ c ∈ l, ¬ PairInP m c.sgid c.tgid)
    (hdist : l.Pairwise (fun a b => (a.sgid, a.tgid) ≠ (b.sgid, b.tgid))) :
    WfCM (l.foldl (fun mm c => (store_map mm c).1) m)
    ∧ (join_all (l.foldl (fun mm c => (store_map mm c).1) m)).Perm (join_all m ++ l) := by
  induction l generalizing m with
  | nil => exact ⟨hw, by simp⟩
  | cons c rest ih =>
    obtain ⟨_, hwf, hperm⟩ := store_map_ok hw (hnp c (List.mem_cons_self c rest))
    have hnp' : ∀ x ∈ rest, ¬ PairInP (store_map m c).1 x.sgid x.tgid := by
      intro x hx hpx
      rw [pairInP_iff_join hwf] at hpx
      obtain ⟨c', hc', hcs, hct⟩ := hpx
      rcases List.mem_cons.mp (hperm.mem_iff.mp hc') with h1 | h1
      · exact (List.pairwise_cons.mp hdist).1 x hx (by rw [← h1, hcs, hct])
      · exact hnp x (List.mem_cons_of_mem c hx)
          ((pairInP_iff_join hw x.sgid x.tgid).mpr ⟨c', h1, hcs, hct⟩)
    obtain ⟨hwf2, hperm2⟩ :=
      ih (store_map m c).1 hwf hnp' (List.pairwise_cons.mp hdist).2
    refine ⟨hwf2, ?_⟩
    rw [List.foldl_cons]
    refine hperm2.trans ((hperm.append_right rest).trans ?_)
    show (c :: (join_all m ++ rest)).Perm (join_all m ++ c :: rest)
    exact List.perm_middle.symm

/-- C1.  Storing any sequence of connections with pairwise distinct
`(sgid, tgid)` pairs into an empty manager makes `all_connections` yield
every stored connection exactly once (a permutation of the input), and every
destination bucket is strictly ascending by sgid. -/
theorem store_distinct_all_connections (l : List Conn)
    (hdist : l.Pairwise (fun a b => (a.sgid, a.tgid) ≠ (b.sgid, b.tgid))) :
    (all_connections (store_all l)).Perm l
    ∧ ∀ p ∈ (store_all l).connections_map, BucketSorted p.2 := by
  have hm : (store_all l).connections_map
      = l.foldl (fun m c => (store_map m c).1) [] := store_fold_map l init_state
  have h0 : WfCM ([] : ConnMap) := ⟨List.nodup_nil, fun p hp => absurd hp (by simp)⟩
  have hnp : ∀ c ∈ l, ¬ PairInP [] c.sgid c.tgid := by
    rintro c _ ⟨p, hp0, _⟩
    cases hp0
  obtain ⟨hwf, hperm⟩ := store_fold_ok l [] h0 hnp hdist
  constructor
  · rw [all_connections_eq, hm]
    have hnil : join_all ([] : ConnMap) = [] := rfl
    rw [hnil] at hperm
    exact hperm
  · intro p hp
    rw [hm] at hp
    exact (hwf.2 p hp).2

/-- Witness for C1: three connections over two destinations, stored out of
order. -/
theorem store_distinct_all_connections_witness :
    List.Pairwise (fun a b : Conn => (a.sgid, a.tgid) ≠ (b.sgid, b.tgid))
      [⟨2, 10, false, []⟩, ⟨1, 10, false, []⟩, ⟨5, 3, false, []⟩]
    ∧ ((all_connections (store_all
          [⟨2, 10, false, []⟩, ⟨1, 10, false, []⟩, ⟨5, 3, false, []⟩])).Perm
        [⟨2, 10, false, []⟩, ⟨1, 10, false, []⟩, ⟨5, 3, false, []⟩]
      ∧ ∀ p ∈ (store_all
          [⟨2, 10, false, []⟩, ⟨1, 10, false, []⟩, ⟨5, 3, false, []⟩]).connections_map,
          BucketSorted p.2) :=
  ⟨by decide, store_distinct_all_connections
    [⟨2, 10, false, []⟩, ⟨1, 10, false, []⟩, ⟨5, 3, false, []⟩] (by decide)⟩

/-- C2.  Storing a connection whose `(sgid, tgid)` pair is already present in
a well-formed active index is a reported error (the returned flag) and a
no-op: the whole state — bucket sizes and the originally stored objects
included — is unchanged, and the operation is total (no exception). -/
theorem store_duplicate_reported_noop (st : MgrState) (c : Conn)
    (hw : WfCM st.connections_map) (hp : PairInP st.connections_map c.sgid c.tgid) :
    store_connection st c = (st, true) := by
  rw [store_connection_eq, store_map_present hw hp]

/-- Witness for C2: re-storing the pair `(3, 7)` with different content
leaves the state untouched and reports the error. -/
theorem store_duplicate_reported_noop_witness :
    (WfCM (⟨[(7, [⟨3, 7, false, [5]⟩])], []⟩ : MgrState).connections_map
      ∧ PairInP (⟨[(7, [⟨3, 7, false, [5]⟩])], []⟩ : MgrState).connections_map 3 7)
    ∧ store_connection (⟨[(7, [⟨3, 7, false, [5]⟩])], []⟩ : MgrState) ⟨3, 7, true, [9]⟩
        = ((⟨[(7, [⟨3, 7, false, [5]⟩])], []⟩ : MgrState), true) :=
  ⟨⟨by decide, by decide⟩,
    store_duplicate_reported_noop (⟨[(7, [⟨3, 7, false, [5]⟩])], []⟩ : MgrState)
      ⟨3, 7, true, [9]⟩ (by decide) (by decide)⟩

/-! ### Claim C8 — delete of a non-existent pair -/

/-- Counterexample for C8 as stated: `delete` of a missing pair does leave a
trace — `_find_connection` reads `self._connections_map[tgid]` on a
defaultdict, so a missing destination gains an empty bucket.  From the empty
manager, `delete(1, 2)` warns but changes the index state. -/
theorem delete_missing_creates_bucket_counterexample :
    (delete init_state 1 2).2 = true
    ∧ (delete init_state 1 2).1.connections_map = [(2, [])]
    ∧ (delete init_state 1 2).1 ≠ init_state := by decide

/-- C8 (amended).  `delete(s, t)` of a pair absent from the active index does
not raise, warns (the returned flag), removes or adds no connection
(`all_connections` is untouched), leaves every existing bucket and the
disabled index unchanged — but, when `t` has no bucket yet, the defaultdict
lookup creates an empty bucket for `t` as a side effect. -/
theorem delete_missing_pair_noop (st : MgrState) (s t : Int)
    (hnp : ¬ PairInP st.connections_map s t) :
    (delete st s t).2 = true
    ∧ (delete st s t).1.disabled_conns = st.disabled_conns
    ∧ all_connections (delete st s t).1 = all_connections st
    ∧ ∀ k b, map_find st.connections_map k = some b
        → map_find (delete st s t).1.connections_map k = some b := by
  have hcond : ((bucket_of (ensure_key st.connections_map t) t).get?
      (bin_search (bucket_of (ensure_key st.connections_map t) t) s)).map Conn.sgid
      ≠ some s := by
    rw [bucket_of_ensure_key]
    intro hc
    cases hg : (bucket_of st.connections_map t).get?
        (bin_search (bucket_of st.connections_map t) s) with
    | none => rw [hg] at hc; cases hc
    | some x =>
      rw [hg] at hc
      have hxs : x.sgid = s := Option.some.inj hc
      have hxmem : x ∈ bucket_of st.connections_map t := List.get?_mem hg
      cases hf : map_find st.connections_map t with
      | none =>
        rw [bucket_of, hf] at hxmem
        cases hxmem
      | some b0 =>
        rw [bucket_of, hf] at hxmem
        exact hnp ⟨(t, b0), map_find_mem hf, rfl, x, hxmem, hxs⟩
  have hfind : find_connection st.connections_map s t true
      = (ensure_key st.connections_map t,
         bucket_of (ensure_key st.connections_map t) t, none) := by
    simp only [find_connection]
    rw [if_pos ⟨trivial, hcond⟩]
  have hdel : delete st s t
      = ({ st with connections_map := ensure_key st.connections_map t }, true) := by
    simp only [delete, hfind]
  refine ⟨by rw [hdel], by rw [hdel], ?_, ?_⟩
  · rw [hdel, all_connections_eq, all_connections_eq]
    exact join_all_ensure_key st.connections_map t
  · intro k b hkb
    rw [hdel]
    exact map_find_ensure_key_mono t hkb

/-- Witness for C8 (amended): deleting the absent pair `(1, 2)` from a state
whose bucket `2` holds only sgid `5`. -/
theorem delete_missing_pair_noop_witness :
    (¬ PairInP (⟨[(2, [⟨5, 2, false, []⟩])], [(9, [])]⟩ : MgrState).connections_map 1 2)
    ∧ (delete (⟨[(2, [⟨5, 2, false, []⟩])], [(9, [])]⟩ : MgrState) 1 2).2 = true
    ∧ (delete (⟨[(2, [⟨5, 2, false, []⟩])], [(9, [])]⟩ : MgrState) 1 2).1.disabled_conns
        = [(9, [])]
    ∧ all_connections (delete (⟨[(2, [⟨5, 2, false, []⟩])], [(9, [])]⟩ : MgrState) 1 2).1
        = all_connections (⟨[(2, [⟨5, 2, false, []⟩])], [(9, [])]⟩ : MgrState) :=
  ⟨by decide,
    (delete_missing_pair_noop (⟨[(2, [⟨5, 2, false, []⟩])], [(9, [])]⟩ : MgrState) 1 2
      (by decide)).1,
    (delete_missing_pair_noop (⟨[(2, [⟨5, 2, false, []⟩])], [(9, [])]⟩ : MgrState) 1 2
      (by decide)).2.1,
    (delete_missing_pair_noop (⟨[(2, [⟨5, 2, false, []⟩])], [(9, [])]⟩ : MgrState) 1 2
      (by decide)).2.2.1⟩

/-! ### Claim C4 — the group operations skip entries -/

/-- C4 (code bug).  The group operations do *not* apply the single-pair
operation to every matching connection: the caller mutates the bucket while
`_find_group_in` enumerates it, so the entry sliding into each removed slot
is skipped.  On a bucket with sgids `[1, 2, 3]` and all-matching filters
(`None`, `None`), `delete_group` leaves sgid `2` stored, `disable_group`
disables only sgids `1` and `3`, and `enable_group` re-enables only sgids
`1` and `3` — the claim says the resulting contents are exactly the set of
all matching entries (here: none left / all moved). -/
theorem delete_group_skips_after_removal :
    (delete_group
        (⟨[(10, [⟨1, 10, false, []⟩, ⟨2, 10, false, []⟩, ⟨3, 10, false, []⟩])], []⟩ :
          MgrState) none none).connections_map
      = [(10, [⟨2, 10, false, []⟩])]
    ∧ (disable_group
        (⟨[(10, [⟨1, 10, false, []⟩, ⟨2, 10, false, []⟩, ⟨3, 10, false, []⟩])], []⟩ :
          MgrState) none none false).connections_map
      = [(10, [⟨2, 10, false, []⟩])]
    ∧ (disable_group
        (⟨[(10, [⟨1, 10, false, []⟩, ⟨2, 10, false, []⟩, ⟨3, 10, false, []⟩])], []⟩ :
          MgrState) none none false).disabled_conns
      = [(10, [⟨1, 10, true, []⟩, ⟨3, 10, true, []⟩])]
    ∧ (enable_group
        (⟨[], [(10, [⟨1, 10, true, []⟩, ⟨2, 10, true, []⟩, ⟨3, 10, true, []⟩])]⟩ :
          MgrState) none none).connections_map
      = [(10, [⟨1, 10, false, []⟩, ⟨3, 10, false, []⟩])]
    ∧ (enable_group
        (⟨[], [(10, [⟨1, 10, true, []⟩, ⟨2, 10, true, []⟩, ⟨3, 10, true, []⟩])]⟩ :
          MgrState) none none).disabled_conns
      = [(10, [⟨2, 10, true, []⟩])] := by decide

/-! ### Claim C9 — `connect_all` on rows not sorted by sgid -/

/-- Counterexample for C9 as stated: rows `[1, 2, 1]` for post-gid 10 do
*not* silently produce two disjoint stored Connections for sgid 1 (one per
run).  `store_connection` detects the second run as a duplicate, reports one
error, and refuses to store it; the index keeps a single sgid-1 connection
holding only the first run's row, and the later run's row is dropped. -/
theorem connect_all_unsorted_counterexample :
    (connect_all init_state none [(10, [1, 2, 1])]).1.connections_map
      = [(10, [⟨1, 10, false, [0]⟩, ⟨2, 10, false, [1]⟩])]
    ∧ (connect_all init_state none [(10, [1, 2, 1])]).2 = 1
    ∧ ((all_connections (connect_all init_state none [(10, [1, 2, 1])]).1).countP
        (fun c => c.sgid == 1)) = 1
    ∧ (1 : Nat) ≠ 2 := by decide

/-! ### The `connect_all` invariant (claim C9, amended) -/

/-- Shape of the active map while `connect_all` processes one post-gid `t`
from an empty manager: either still empty, or a single sorted bucket under
key `t` whose sgids are exactly the processed ones (`seen`). -/
def ConnShape (t : Int) (seen : Int → Prop) (m : ConnMap) : Prop :=
  (m = [] ∧ ∀ s, ¬ seen s)
  ∨ ∃ b, m = [(t, b)] ∧ BucketSorted b ∧ ∀ s, s ∈ b.map Conn.sgid ↔ seen s

theorem connShape_congr {t : Int} {seen seen' : Int → Prop} {m : ConnMap}
    (h : ∀ s, seen s ↔ seen' s) (hs : ConnShape t seen m) : ConnShape t seen' m := by
  rcases hs with ⟨h1, h2⟩ | ⟨b, h1, h2, h3⟩
  · exact Or.inl ⟨h1, fun s hs' => h2 s ((h s).mpr hs')⟩
  · exact Or.inr ⟨b, h1, h2, fun s => (h3 s).trans (h s)⟩

theorem map_sgid_update (b : List Conn) (c : Conn) :
    (b.map (fun x => if x.sgid = c.sgid then c else x)).map Conn.sgid
      = b.map Conn.sgid := by
  rw [List.map_map]
  refine List.map_congr_left fun x _ => ?_
  by_cases hx : x.sgid = c.sgid
  · simp [hx]
  · simp [hx]

theorem sorted_update {b : List Conn} (c : Conn) (hs : BucketSorted b) :
    BucketSorted (b.map (fun x => if x.sgid = c.sgid then c else x)) := by
  have hf : ∀ x : Conn, ((fun x => if x.sgid = c.sgid then c else x) x).sgid = x.sgid := by
    intro x
    by_cases hx : x.sgid = c.sgid
    · simp [hx]
    · simp [hx]
  rw [BucketSorted, List.pairwise_map]
  exact hs.imp fun {a b'} h => by rw [hf a, hf b']; exact h

theorem update_stored_single (t : Int) (b : List Conn) (dm : ConnMap) (c : Conn)
    (hct : c.tgid = t) :
    (update_stored ⟨[(t, b)], dm⟩ c).connections_map
      = [(t, b.map fun x => if x.sgid = c.sgid then c else x)] := by
  simp only [update_stored, List.map_cons, List.map_nil]
  rw [if_pos hct.symm]

theorem store_map_nil (c : Conn) : store_map [] c = ([(c.tgid, [c])], false) := by
  have hcell : bucket_of (ensure_key ([] : ConnMap) c.tgid) c.tgid = [] :=
    bucket_of_ensure_key [] c.tgid
  rw [store_map, hcell, store_bucket_nil, if_neg (fun hcond => Bool.noConfusion hcond)]
  show (set_bucket (ensure_key [] c.tgid) c.tgid [c], false) = _
  have : ensure_key ([] : ConnMap) c.tgid = [(c.tgid, [])] := rfl
  rw [this, set_bucket_cons, if_pos rfl]
  rfl

theorem store_map_single_insert {t : Int} {b : List Conn} {c : Conn} (hct : c.tgid = t)
    (hs : BucketSorted b) (hnm : c.sgid ∉ b.map Conn.sgid) :
    store_map [(t, b)] c = ([(t, (store_bucket b c).1)], false) := by
  subst hct
  have hf : map_find [(c.tgid, b)] c.tgid = some b := by
    rw [map_find_cons, if_pos rfl]
  have hE : ensure_key [(c.tgid, b)] c.tgid = [(c.tgid, b)] := ensure_key_of_found hf
  have hcell : bucket_of (ensure_key [(c.tgid, b)] c.tgid) c.tgid = b := by
    rw [hE, bucket_of, hf]
    rfl
  obtain ⟨he, _, _⟩ := store_bucket_not_mem hs hnm
  rw [store_map, hcell, hE, if_neg (fun hcond => by rw [he] at hcond; cases hcond),
    set_bucket_cons, if_pos rfl]
  rfl

theorem store_map_single_dup {t : Int} {b : List Conn} {c : Conn} (hct : c.tgid = t)
    (hs : BucketSorted b) (hm : c.sgid ∈ b.map Conn.sgid) :
    store_map [(t, b)] c = ([(t, b)], true) := by
  subst hct
  have hf : map_find [(c.tgid, b)] c.tgid = some b := by
    rw [map_find_cons, if_pos rfl]
  have hE : ensure_key [(c.tgid, b)] c.tgid = [(c.tgid, b)] := ensure_key_of_found hf
  have hcell : bucket_of (ensure_key [(c.tgid, b)] c.tgid) c.tgid = b := by
    rw [hE, bucket_of, hf]
    rfl
  rw [store_map, hcell, store_bucket_mem hs hm, if_pos rfl, hE]

theorem update_stored_shape {t : Int} {seen : Int → Prop} (st : MgrState) (c : Conn)
    (h : ConnShape t seen st.connections_map) :
    ConnShape t seen (update_stored st c).connections_map := by
  rcases h with ⟨h1, h2⟩ | ⟨b, h1, hsort, hiff⟩
  · refine Or.inl ⟨?_, h2⟩
    show st.connections_map.map _ = []
    rw [h1]
    rfl
  · right
    by_cases hct : t = c.tgid
    · refine ⟨b.map (fun x => if x.sgid = c.sgid then c else x), ?_,
        sorted_update c hsort, ?_⟩
      · show st.connections_map.map _ = _
        rw [h1]
        simp only [List.map_cons, List.map_nil]
        rw [if_pos hct]
      · intro s
        rw [map_sgid_update]
        exact hiff s
    · refine ⟨b, ?_, hsort, hiff⟩
      show st.connections_map.map _ = _
      rw [h1]
      simp only [List.map_cons, List.map_nil]
      rw [if_neg hct]

theorem connect_step_matched (t : Int) (st : MgrState) (c : Conn) (stored : Bool)
    (errs : Nat) (i : Nat) (sgid : Int) (hc : c.sgid = sgid) :
    connect_step t none (st, some (c, stored), errs) (i, sgid)
      = ((if stored = true then update_stored st (add_synapse c i) else st),
         some (add_synapse c i, stored), errs) := by
  simp only [connect_step, Bool.false_eq_true, if_false]
  rw [if_pos hc]

theorem connect_step_new (t : Int) (st : MgrState) (cur : Option (Conn × Bool))
    (errs : Nat) (i : Nat) (sgid : Int)
    (hne : ∀ c stored, cur = some (c, stored) → c.sgid ≠ sgid) :
    connect_step t none (st, cur, errs) (i, sgid)
      = ((if (store_connection st (new_connection sgid t)).2 = true
          then (store_connection st (new_connection sgid t)).1
          else update_stored (store_connection st (new_connection sgid t)).1
            (add_synapse (new_connection sgid t) i)),
         some (add_synapse (new_connection sgid t) i,
           !(store_connection st (new_connection sgid t)).2),
         errs + (if (store_connection st (new_connection sgid t)).2 = true then 1 else 0)) := by
  cases cur with
  | none => simp only [connect_step, Bool.false_eq_true, if_false]
  | some pr =>
    obtain ⟨c, stored⟩ := pr
    simp only [connect_step, Bool.false_eq_true, if_false]
    rw [if_neg (hne c stored rfl)]

theorem connect_step_shape (t : Int) (i : Nat) (sgid : Int)
    (st : MgrState) (cur : Option (Conn × Bool)) (errs : Nat) (seen : Int → Prop)
    (hshape : ConnShape t seen st.connections_map)
    (hcur : ∀ p, cur = some p → seen p.1.sgid) :
    ConnShape t (fun s => seen s ∨ s = sgid)
        (connect_step t none (st, cur, errs) (i, sgid)).1.connections_map
    ∧ ∀ p, (connect_step t none (st, cur, errs) (i, sgid)).2.1 = some p
        → (seen p.1.sgid ∨ p.1.sgid = sgid) := by
  by_cases hmatch : ∃ c stored, cur = some (c, stored) ∧ c.sgid = sgid
  · obtain ⟨c, stored, hcs, hc⟩ := hmatch
    subst hcs
    rw [connect_step_matched t st c stored errs i sgid hc]
    have hcong : ∀ s, seen s ↔ (seen s ∨ s = sgid) := by
      intro s
      constructor
      · exact Or.inl
      · rintro (h | rfl)
        · exact h
        · exact hc ▸ hcur (c, stored) rfl
    constructor
    · by_cases hst : stored = true
      · rw [if_pos hst]
        exact connShape_congr hcong (update_stored_shape st (add_synapse c i) hshape)
      · rw [if_neg hst]
        exact connShape_congr hcong hshape
    · intro p hp
      cases Option.some.inj hp
      exact Or.inl (hcur (c, stored) rfl)
  · have hne : ∀ c stored, cur = some (c, stored) → c.sgid ≠ sgid := by
      intro c stored hcs hc
      exact hmatch ⟨c, stored, hcs, hc⟩
    rw [connect_step_new t st cur errs i sgid hne]
    rcases hshape with ⟨h1, hseen⟩ | ⟨b, h1, hsort, hiff⟩
    · have hsm : store_map st.connections_map (new_connection sgid t)
          = ([(t, [new_connection sgid t])], false) := by
        rw [h1]
        exact store_map_nil _
      have hsc : store_connection st (new_connection sgid t)
          = ({ st with connections_map := [(t, [new_connection sgid t])] }, false) := by
        rw [store_connection_eq, hsm]
      rw [hsc]
      rw [if_neg (fun hcond => Bool.noConfusion hcond),
        if_neg (fun hcond => Bool.noConfusion hcond)]
      have hmid : ConnShape t (fun s => seen s ∨ s = sgid)
          ({ st with connections_map := [(t, [new_connection sgid t])] } :
            MgrState).connections_map := by
        refine Or.inr ⟨[new_connection sgid t], rfl, List.pairwise_singleton _ _, fun s => ?_⟩
        show s ∈ [sgid] ↔ seen s ∨ s = sgid
        rw [List.mem_singleton]
        constructor
        · exact Or.inr
        · rintro (h | rfl)
          · exact absurd h (hseen s)
          · rfl
      exact ⟨update_stored_shape _ _ hmid,
        fun p hp => by cases Option.some.inj hp; exact Or.inr rfl⟩
    · by_cases hmem : sgid ∈ b.map Conn.sgid
      · have hsm : store_map st.connections_map (new_connection sgid t) = ([(t, b)], true) := by
          rw [h1]
          exact store_map_single_dup rfl hsort hmem
        have hsc : store_connection st (new_connection sgid t)
            = ({ st with connections_map := [(t, b)] }, true) := by
          rw [store_connection_eq, hsm]
        rw [hsc]
        rw [if_pos rfl, if_pos rfl]
        refine ⟨Or.inr ⟨b, rfl, hsort, fun s => ?_⟩,
          fun p hp => by cases Option.some.inj hp; exact Or.inr rfl⟩
        constructor
        · intro h
          exact Or.inl ((hiff s).mp h)
        · rintro (h | rfl)
          · exact (hiff s).mpr h
          · exact hmem
      · obtain ⟨he, hperm, hsort'⟩ := store_bucket_not_mem hsort
          (show (new_connection sgid t).sgid ∉ b.map Conn.sgid from hmem)
        have hsm : store_map st.connections_map (new_connection sgid t)
            = ([(t, (store_bucket b (new_connection sgid t)).1)], false) := by
          rw [h1]
          exact store_map_single_insert rfl hsort hmem
        have hsc : store_connection st (new_connection sgid t)
            = ({ st with connections_map :=
                  [(t, (store_bucket b (new_connection sgid t)).1)] }, false) := by
          rw [store_connection_eq, hsm]
        rw [hsc]
        rw [if_neg (fun hcond => Bool.noConfusion hcond),
          if_neg (fun hcond => Bool.noConfusion hcond)]
        have hmid : ConnShape t (fun s => seen s ∨ s = sgid)
            ({ st with connections_map :=
                [(t, (store_bucket b (new_connection sgid t)).1)] } :
              MgrState).connections_map := by
          refine Or.inr ⟨(store_bucket b (new_connection sgid t)).1, rfl, hsort', fun s => ?_⟩
          have hmm := (hperm.map Conn.sgid).mem_iff (a := s)
          rw [show List.map Conn.sgid (new_connection sgid t :: b)
              = sgid :: List.map Conn.sgid b from rfl] at hmm
          rw [hmm, List.mem_cons]
          constructor
          · rintro (rfl | h)
            · exact Or.inr rfl
            · exact Or.inl ((hiff s).mp h)
          · rintro (h | rfl)
            · exact Or.inr ((hiff s).mpr h)
            · exact Or.inl rfl
        exact ⟨update_stored_shape _ _ hmid,
          fun p hp => by cases Option.some.inj hp; exact Or.inr rfl⟩

theorem connect_fold_shape (t : Int) (rows : List Int) : ∀ (n : Nat) (st : MgrState)
    (cur : Option (Conn × Bool)) (errs : Nat) (seen : Int → Prop),
    ConnShape t seen st.connections_map →
    (∀ p, cur = some p → seen p.1.sgid) →
    ConnShape t (fun s => seen s ∨ s ∈ rows)
      ((List.enumFrom n rows).foldl (connect_step t none)
        (st, cur, errs)).1.connections_map := by
  induction rows with
  | nil =>
    intro n st cur errs seen hshape _
    exact connShape_congr (fun s => by simp) hshape
  | cons r rest ih =>
    intro n st cur errs seen hshape hcur
    rw [show List.enumFrom n (r :: rest) = (n, r) :: List.enumFrom (n + 1) rest from rfl,
      List.foldl_cons]
    obtain ⟨hs1, hc1⟩ := connect_step_shape t n r st cur errs seen hshape hcur
    have hrec := ih (n + 1) (connect_step t none (st, cur, errs) (n, r)).1
      (connect_step t none (st, cur, errs) (n, r)).2.1
      (connect_step t none (st, cur, errs) (n, r)).2.2
      (fun s => seen s ∨ s = r) hs1 hc1
    refine connShape_congr (fun s => ?_) hrec
    rw [List.mem_cons]
    constructor
    · rintro ((h | rfl) | h)
      · exact Or.inl h
      · exact Or.inr (Or.inl rfl)
      · exact Or.inr (Or.inr h)
    · rintro (h | (rfl | h))
      · exact Or.inl (Or.inl h)
      · exact Or.inl (Or.inr rfl)
      · exact Or.inr h

/-- C9 (amended).  `connect_all` does not re-sort: when the rows of one
post-gid contain a source id in two non-adjacent runs, the later run is
*not* silently stored as a second disjoint Connection.  `store_connection`
reports the duplicate and refuses it, so the active index always holds
exactly one stored connection per distinct source id of the row list (the
first run; later runs of the same sgid are dropped), and every bucket stays
strictly ascending. -/
theorem connect_all_one_connection_per_sgid (t : Int) (rows : List Int) (s : Int) :
    ((all_connections (connect_all init_state none [(t, rows)]).1).countP
        (fun c => c.sgid == s)) = (if s ∈ rows then 1 else 0)
    ∧ ∀ p ∈ (connect_all init_state none [(t, rows)]).1.connections_map,
        BucketSorted p.2 := by
  have hshape0 : ConnShape t (fun _ => False) init_state.connections_map :=
    Or.inl ⟨rfl, fun _ h => h⟩
  have h := connect_fold_shape t rows 0 init_state none 0 (fun _ => False) hshape0
    (fun p hp => Option.noConfusion hp)
  have hca : (connect_all init_state none [(t, rows)]).1
      = ((List.enumFrom 0 rows).foldl (connect_step t none) (init_state, none, 0)).1 := rfl
  rw [hca]
  rcases h with ⟨h1, h2⟩ | ⟨b, h1, hsort, hiff⟩
  · refine ⟨?_, ?_⟩
    · rw [all_connections_eq, h1]
      rw [if_neg (fun hs => h2 s (Or.inr hs))]
      rfl
    · intro p hp
      rw [h1] at hp
      cases hp
  · have hj : join_all [(t, b)] = b := by simp [join_all]
    refine ⟨?_, ?_⟩
    · rw [all_connections_eq, h1, hj]
      have hcnt : b.countP (fun c => c.sgid == s) = (b.map Conn.sgid).count s := by
        rw [List.count_eq_countP, List.countP_map]
        rfl
      have hnd : (b.map Conn.sgid).Nodup :=
        (List.pairwise_map.mpr hsort).imp fun h => ne_of_lt h
      rw [hcnt]
      by_cases hsr : s ∈ rows
      · rw [if_pos hsr]
        exact List.count_eq_one_of_mem hnd ((hiff s).mpr (Or.inr hsr))
      · rw [if_neg hsr]
        refine List.count_eq_zero_of_not_mem fun hm => ?_
        rcases (hiff s).mp hm with hf | hr
        · exact hf
        · exact hsr hr
    · intro p hp
      rw [h1] at hp
      rw [List.mem_singleton] at hp
      rw [hp]
      exact hsort

/-! ### Helper lemmas for claim C3 -/

theorem conn_toggle {c : Conn} (h : c.disabled = false) :
    ({ { c with disabled := true } with disabled := false } : Conn) = c := by
  cases c
  simp_all

theorem pairInP_set_bucket {m : ConnMap} {t : Int} {b' : List Conn}
    (hsome : (map_find m t).isSome) (s : Int) :
    PairInP (set_bucket m t b') s t ↔ ∃ c ∈ b', c.sgid = s := by
  constructor
  · rintro ⟨p, hp, hpt, c, hc, hcs⟩
    rw [set_bucket, List.mem_map] at hp
    obtain ⟨q, hq, hpq⟩ := hp
    by_cases hqt : q.1 = t
    · rw [if_pos hqt] at hpq
      have hb : p.2 = b' := by rw [← hpq]
      exact ⟨c, hb ▸ hc, hcs⟩
    · rw [if_neg hqt] at hpq
      rw [← hpq] at hpt
      exact absurd hpt hqt
  · rintro ⟨c, hc, hcs⟩
    obtain ⟨db, hdb⟩ := Option.isSome_iff_exists.mp hsome
    refine ⟨(t, b'), ?_, rfl, c, hc, hcs⟩
    rw [set_bucket, List.mem_map]
    exact ⟨(t, db), map_find_mem hdb, by simp⟩

theorem map_eraseIdx_sgid : ∀ (b : List Conn) (i : Nat),
    (b.eraseIdx i).map Conn.sgid = (b.map Conn.sgid).eraseIdx i
  | [], _ => rfl
  | _ :: _, 0 => rfl
  | x :: xs, i + 1 => by
    rw [List.eraseIdx_cons_succ, List.map_cons, List.map_cons, List.eraseIdx_cons_succ,
      map_eraseIdx_sgid xs i]

theorem nodup_get_not_mem_eraseIdx : ∀ {l : List Int} {i : Nat} {a : Int},
    l.Nodup → l.get? i = some a → a ∉ l.eraseIdx i := by
  intro l
  induction l with
  | nil =>
    intro i a _ h
    cases h
  | cons x xs ih =>
    intro i a hnd hget
    cases i with
    | zero =>
      cases Option.some.inj hget
      rw [List.eraseIdx_cons_zero]
      exact (List.nodup_cons.mp hnd).1
    | succ i =>
      rw [List.eraseIdx_cons_succ]
      intro hmem
      rcases List.mem_cons.mp hmem with rfl | hmem2
      · exact (List.nodup_cons.mp hnd).1 (List.get?_mem hget)
      · exact ih (List.nodup_cons.mp hnd).2 hget hmem2

theorem sorted_eraseIdx {b : List Conn} (i : Nat) (hs : BucketSorted b) :
    BucketSorted (b.eraseIdx i) :=
  List.Pairwise.sublist (List.eraseIdx_sublist b i) hs

theorem eraseIdx_concat (l : List Conn) (x : Conn) :
    (l ++ [x]).eraseIdx l.length = l := by
  rw [List.eraseIdx_append_of_length_le le_rfl]
  simp

theorem findIdx_append_singleton {l : List Conn} {x : Conn} {s : Int}
    (hl : ∀ y ∈ l, y.sgid ≠ s) (hx : x.sgid = s) :
    (l ++ [x]).findIdx? (fun c => c.sgid == s) = some l.length := by
  induction l with
  | nil =>
    rw [List.nil_append]
    show [x].findIdx? (fun c => c.sgid == s) = some 0
    rw [List.findIdx?_cons]
    rw [if_pos (by rw [beq_iff_eq]; exact hx)]
  | cons y ys ih =>
    have hy : (y.sgid == s) = false := by
      rw [beq_eq_false_iff_ne]
      exact hl y (List.mem_cons_self y ys)
    rw [List.cons_append, List.findIdx?_cons, hy]
    rw [if_neg (fun hc => Bool.noConfusion hc)]
    rw [List.findIdx?_succ]
    rw [ih fun y' hy' => hl y' (List.mem_cons_of_mem y hy')]
    rfl

theorem store_connection_disabled (st : MgrState) (c : Conn) :
    (store_connection st c).1.disabled_conns = st.disabled_conns := by
  rw [store_connection_eq]

theorem get_connection_some {m : ConnMap} {s t : Int} {c0 : Conn}
    (h : get_connection m s t = some c0) :
    c0.sgid = s ∧ ∃ b, map_find m t = some b ∧ c0 ∈ b
      ∧ b.get? (bin_search b s) = some c0 := by
  by_cases hcond : ((bucket_of (ensure_key m t) t).get?
      (bin_search (bucket_of (ensure_key m t) t) s)).map Conn.sgid ≠ some s
  · have hfind : find_connection m s t true
        = (ensure_key m t, bucket_of (ensure_key m t) t, none) := by
      simp only [find_connection]
      rw [if_pos ⟨trivial, hcond⟩]
    rw [get_connection, hfind] at h
    cases h
  · push_neg at hcond
    have hfind : find_connection m s t true
        = (ensure_key m t, bucket_of (ensure_key m t) t,
           some (bin_search (bucket_of (ensure_key m t) t) s)) := by
      simp only [find_connection]
      rw [if_neg (fun hc => hc.2 hcond)]
    rw [get_connection, hfind] at h
    rw [bucket_of_ensure_key] at h hcond
    have hget : (bucket_of m t).get? (bin_search (bucket_of m t) s) = some c0 := h
    have hsg : c0.sgid = s := by
      rw [hget] at hcond
      exact Option.some.inj hcond
    cases hf : map_find m t with
    | none =>
      rw [bucket_of, hf] at hget
      cases hget
    | some b =>
      have hb : bucket_of m t = b := by rw [bucket_of, hf]; rfl
      rw [hb] at hget
      exact ⟨hsg, b, rfl, List.get?_mem hget, hget⟩

theorem get_connection_of_mem {m : ConnMap} {c : Conn} {s t : Int}
    (hw : WfCM m) (hc : c ∈ join_all m) (hcs : c.sgid = s) (hct : c.tgid = t) :
    get_connection m s t = some c := by
  obtain ⟨bb, hbb, hcb⟩ := List.mem_join.mp hc
  obtain ⟨p, hp, hpb⟩ := List.mem_map.mp hbb
  have hcb' : c ∈ p.2 := by rw [hpb]; exact hcb
  have hpt : p.1 = t := by rw [← hct, (hw.2 p hp).1 c hcb']
  have hptm : (t, p.2) ∈ m := by rw [← hpt]; exact hp
  have hf : map_find m t = some p.2 := mem_map_find hw.1 hptm
  have hE : ensure_key m t = m := ensure_key_of_found hf
  have hcell : bucket_of (ensure_key m t) t = p.2 := by
    rw [hE, bucket_of, hf]
    rfl
  have hget : p.2.get? (bin_search p.2 s) = some c := by
    rw [← hcs]
    exact bin_search_get_of_mem (hw.2 p hp).2 hcb'
  have hcond : ¬ ((bucket_of (ensure_key m t) t).get?
      (bin_search (bucket_of (ensure_key m t) t) s)).map Conn.sgid ≠ some s := by
    rw [hcell, hget]
    intro hne
    refine hne ?_
    show some c.sgid = some s
    rw [hcs]
  have hfind : find_connection m s t true
      = (ensure_key m t, bucket_of (ensure_key m t) t,
         some (bin_search (bucket_of (ensure_key m t) t) s)) := by
    simp only [find_connection]
    rw [if_neg (fun hcc => hcond hcc.2)]
  rw [get_connection, hfind]
  show (bucket_of (ensure_key m t) t).get?
      (bin_search (bucket_of (ensure_key m t) t) s) = some c
  rw [hcell]
  exact hget

/-! ### Claim C3 — disable / enable round trip -/

theorem disable_found {st : MgrState} {s t : Int} {b : List Conn} {c : Conn}
    (hf : map_find st.connections_map t = some b)
    (hbpos : b.get? (bin_search b s) = some c) (hcs : c.sgid = s) :
    disable st s t false
      = (⟨set_bucket st.connections_map t (b.eraseIdx (bin_search b s)),
          set_bucket (ensure_key st.disabled_conns t) t
            (bucket_of (ensure_key st.disabled_conns t) t
              ++ [{ c with disabled := true }])⟩, false) := by
  have hE : ensure_key st.connections_map t = st.connections_map := ensure_key_of_found hf
  have hcell : bucket_of st.connections_map t = b := by
    rw [bucket_of, hf]
    rfl
  have hcond : ¬ (((bucket_of (ensure_key st.connections_map t) t).get?
      (bin_search (bucket_of (ensure_key st.connections_map t) t) s)).map Conn.sgid
      ≠ some s) := by
    rw [hE, hcell, hbpos]
    intro hne
    refine hne ?_
    show some c.sgid = some s
    rw [hcs]
  have hfind : find_connection st.connections_map s t true
      = (ensure_key st.connections_map t, bucket_of (ensure_key st.connections_map t) t,
         some (bin_search (bucket_of (ensure_key st.connections_map t) t) s)) := by
    simp only [find_connection]
    rw [if_neg (fun hcc => hcond hcc.2)]
  simp only [disable, hfind, hE, hcell, hbpos]

theorem enable_found {st : MgrState} {s t : Int} {db : List Conn} {c : Conn} {i : Nat}
    (hfd : map_find st.disabled_conns t = some db)
    (hfi : db.findIdx? (fun x => x.sgid == s) = some i)
    (hgi : db.get? i = some c) :
    enable st s t
      = (⟨(store_connection st { c with disabled := false }).1.connections_map,
          set_bucket (store_connection st { c with disabled := false }).1.disabled_conns
            t (db.eraseIdx i)⟩, false) := by
  have hE1 : ensure_key st.disabled_conns t = st.disabled_conns := ensure_key_of_found hfd
  have hcell : bucket_of st.disabled_conns t = db := by
    rw [bucket_of, hfd]
    rfl
  simp only [enable, hE1, hcell, hfi, hgi]

/-- C3.  For a connection present in a well-formed active index (and whose
pair is not in the disabled index), `disable(s,t)` followed by `enable(s,t)`
restores the connection to the active index with the content it had before
the disable, leaves the pair absent from the disabled index, and at the
intermediate state the pair sits in the disabled index only — the pair is
never present in both indices at once. -/
theorem disable_enable_roundtrip (st : MgrState) (s t : Int) (c0 : Conn)
    (hw : WfCM st.connections_map)
    (hget : get_connection st.connections_map s t = some c0)
    (hc0 : c0.disabled = false)
    (hnd : ¬ PairInP st.disabled_conns s t) :
    (disable st s t false).2 = false
    ∧ ¬ PairInP (disable st s t false).1.connections_map s t
    ∧ PairInP (disable st s t false).1.disabled_conns s t
    ∧ (enable (disable st s t false).1 s t).2 = false
    ∧ get_connection (enable (disable st s t false).1 s t).1.connections_map s t = some c0
    ∧ PairInP (enable (disable st s t false).1 s t).1.connections_map s t
    ∧ ¬ PairInP (enable (disable st s t false).1 s t).1.disabled_conns s t := by
  obtain ⟨hsg, b, hf, hc0b, hbpos⟩ := get_connection_some hget
  have hmem_tb : (t, b) ∈ st.connections_map := map_find_mem hf
  have hprops := hw.2 _ hmem_tb
  have hct : c0.tgid = t := hprops.1 c0 hc0b
  have hdis := disable_found hf hbpos hsg
  have hdbs : ∀ y ∈ bucket_of st.disabled_conns t, y.sgid ≠ s := by
    intro y hy hys
    cases hfd : map_find st.disabled_conns t with
    | none =>
      rw [bucket_of, hfd] at hy
      cases hy
    | some db0 =>
      rw [bucket_of, hfd] at hy
      exact hnd ⟨(t, db0), map_find_mem hfd, rfl, y, hy, hys⟩
  have hdb' : bucket_of (ensure_key st.disabled_conns t) t = bucket_of st.disabled_conns t :=
    bucket_of_ensure_key _ _
  have hnp1 : ¬ PairInP (set_bucket st.connections_map t
      (b.eraseIdx (bin_search b s))) s t := by
    rw [pairInP_set_bucket (by rw [hf]; rfl)]
    rintro ⟨c, hcmem, hcs⟩
    have hmm : s ∈ (b.eraseIdx (bin_search b s)).map Conn.sgid :=
      List.mem_map.mpr ⟨c, hcmem, hcs⟩
    rw [map_eraseIdx_sgid] at hmm
    have hnodup : (b.map Conn.sgid).Nodup :=
      (List.pairwise_map.mpr hprops.2).imp fun h => ne_of_lt h
    have hgets : (b.map Conn.sgid).get? (bin_search b s) = some s := by
      rw [List.get?_map, hbpos]
      show some c0.sgid = some s
      rw [hsg]
    exact nodup_get_not_mem_eraseIdx hnodup hgets hmm
  have hp1d : PairInP (set_bucket (ensure_key st.disabled_conns t) t
      (bucket_of (ensure_key st.disabled_conns t) t ++ [{ c0 with disabled := true }])) s t := by
    rw [pairInP_set_bucket (by rw [map_find_ensure_key]; rfl)]
    exact ⟨{ c0 with disabled := true },
      List.mem_append_right _ (List.mem_singleton_self _), hsg⟩
  rw [hdis]
  refine ⟨rfl, hnp1, hp1d, ?_⟩
  have hfd1 : map_find (set_bucket (ensure_key st.disabled_conns t) t
        (bucket_of (ensure_key st.disabled_conns t) t ++ [{ c0 with disabled := true }])) t
      = some (bucket_of (ensure_key st.disabled_conns t) t
        ++ [{ c0 with disabled := true }]) :=
    map_find_set_bucket _ (map_find_ensure_key st.disabled_conns t)
  have hfi : (bucket_of (ensure_key st.disabled_conns t) t
        ++ [{ c0 with disabled := true }]).findIdx? (fun x : Conn => x.sgid == s)
      = some (bucket_of (ensure_key st.disabled_conns t) t).length := by
    refine findIdx_append_singleton ?_ hsg
    rw [hdb']
    exact hdbs
  have hgl : (bucket_of (ensure_key st.disabled_conns t) t
        ++ [{ c0 with disabled := true }]).get?
        (bucket_of (ensure_key st.disabled_conns t) t).length
      = some { c0 with disabled := true } := List.get?_concat_length _ _
  have hen := @enable_found ⟨set_bucket st.connections_map t
      (b.eraseIdx (bin_search b s)),
      set_bucket (ensure_key st.disabled_conns t) t
        (bucket_of (ensure_key st.disabled_conns t) t ++ [{ c0 with disabled := true }])⟩
    _ _ _ _ _ hfd1 hfi hgl
  rw [conn_toggle hc0] at hen
  rw [eraseIdx_concat] at hen
  rw [hen]
  have hw1 : WfCM (set_bucket st.connections_map t (b.eraseIdx (bin_search b s))) := by
    refine wf_set_bucket hw (sorted_eraseIdx _ hprops.2) fun x hx => ?_
    exact hprops.1 x (List.eraseIdx_subset b _ hx)
  have hnp1' : ¬ PairInP (set_bucket st.connections_map t
      (b.eraseIdx (bin_search b s))) c0.sgid c0.tgid := by
    rw [hsg, hct]
    exact hnp1
  obtain ⟨hsf, hw2, hperm2⟩ := store_map_ok hw1 hnp1'
  have hcm2 : (store_connection (⟨set_bucket st.connections_map t
        (b.eraseIdx (bin_search b s)),
        set_bucket (ensure_key st.disabled_conns t) t
          (bucket_of (ensure_key st.disabled_conns t) t
            ++ [{ c0 with disabled := true }])⟩ : MgrState) c0).1.connections_map
      = (store_map (set_bucket st.connections_map t (b.eraseIdx (bin_search b s))) c0).1 := by
    rw [store_connection_eq]
  have hmem2 : c0 ∈ join_all (store_map (set_bucket st.connections_map t
      (b.eraseIdx (bin_search b s))) c0).1 :=
    hperm2.mem_iff.mpr (List.mem_cons_self c0 _)
  refine ⟨rfl, ?_, ?_, ?_⟩
  · show get_connection _ s t = some c0
    rw [hcm2]
    exact get_connection_of_mem hw2 hmem2 hsg hct
  · show PairInP _ s t
    rw [hcm2]
    exact (pairInP_iff_join hw2 s t).mpr ⟨c0, hmem2, hsg, hct⟩
  · show ¬ PairInP (set_bucket _ t (bucket_of (ensure_key st.disabled_conns t) t)) s t
    rw [store_connection_disabled]
    have hsome1 : (map_find (set_bucket (ensure_key st.disabled_conns t) t
        (bucket_of (ensure_key st.disabled_conns t) t
          ++ [{ c0 with disabled := true }])) t).isSome := by
      rw [hfd1]
      rfl
    rw [pairInP_set_bucket hsome1]
    rintro ⟨c, hcmem, hcs⟩
    rw [hdb'] at hcmem
    exact hdbs c hcmem hcs

/-- Witness for C3: the single connection `(3, 7)` is disabled and
re-enabled on a concrete manager. -/
theorem disable_enable_roundtrip_witness :
    (WfCM (⟨[(7, [⟨3, 7, false, [5]⟩])], []⟩ : MgrState).connections_map
      ∧ get_connection (⟨[(7, [⟨3, 7, false, [5]⟩])], []⟩ : MgrState).connections_map 3 7
          = some ⟨3, 7, false, [5]⟩
      ∧ (⟨3, 7, false, [5]⟩ : Conn).disabled = false
      ∧ ¬ PairInP (⟨[(7, [⟨3, 7, false, [5]⟩])], []⟩ : MgrState).disabled_conns 3 7)
    ∧ ((disable (⟨[(7, [⟨3, 7, false, [5]⟩])], []⟩ : MgrState) 3 7 false).2 = false
      ∧ ¬ PairInP (disable (⟨[(7, [⟨3, 7, false, [5]⟩])], []⟩ : MgrState)
          3 7 false).1.connections_map 3 7
      ∧ PairInP (disable (⟨[(7, [⟨3, 7, false, [5]⟩])], []⟩ : MgrState)
          3 7 false).1.disabled_conns 3 7
      ∧ (enable (disable (⟨[(7, [⟨3, 7, false, [5]⟩])], []⟩ : MgrState) 3 7 false).1
          3 7).2 = false
      ∧ get_connection (enable (disable (⟨[(7, [⟨3, 7, false, [5]⟩])], []⟩ : MgrState)
          3 7 false).1 3 7).1.connections_map 3 7 = some ⟨3, 7, false, [5]⟩
      ∧ PairInP (enable (disable (⟨[(7, [⟨3, 7, false, [5]⟩])], []⟩ : MgrState)
          3 7 false).1 3 7).1.connections_map 3 7
      ∧ ¬ PairInP (enable (disable (⟨[(7, [⟨3, 7, false, [5]⟩])], []⟩ : MgrState)
          3 7 false).1 3 7).1.disabled_conns 3 7) :=
  ⟨⟨by decide, by decide, by decide, by decide⟩,
    disable_enable_roundtrip (⟨[(7, [⟨3, 7, false, [5]⟩])], []⟩ : MgrState) 3 7
      ⟨3, 7, false, [5]⟩ (by decide) (by decide) (by decide) (by decide)⟩

end Neurodamus
